import Mathlib

/-!
Verification of the screen-space clustering engine of this repository
(`src/app/components/MapChart.tsx`, with a near-duplicate copy in
`src/unnamed/part_001`).

The engine is embedded shallowly:

* JavaScript numbers are modelled as exact rationals plus a `nan` value
  (`JsNum`); the arithmetic used by the engine (`+`, `-`, `*`, `/` and the
  comparison `Math.sqrt d <= r`) propagates `nan` the way IEEE semantics
  does on the paths the code exercises.
* The mutable `UnionFind` class becomes explicit state passing on a parent
  map `ℕ → ℕ`; the recursive `find` (whose termination in the source relies
  on the parent array staying an acyclic forest) is embedded with fuel `n`,
  the number of elements — the well-formedness invariant `UnionFind.WF`
  states that this fuel always suffices.
* The `clusters` `useMemo` body of `MapChart.tsx` becomes the function
  `Engine.clusters`, parametrised (following the spec's
  `cluster(points, viewport, radiusPx)` signature) by the projector —
  an external collaborator — and by the pixel radius, which the source
  fixes to the constant `50`.
-/

set_option maxRecDepth 8000

/-- JS numbers as the clustering code uses them: exact rationals plus NaN.
(Infinity does not arise on the modelled code paths.) -/
inductive JsNum where
  | nan : JsNum
  | num : ℚ → JsNum
deriving DecidableEq, Repr

namespace JsNum

def add : JsNum → JsNum → JsNum
  | num a, num b => num (a + b)
  | _, _ => nan

def sub : JsNum → JsNum → JsNum
  | num a, num b => num (a - b)
  | _, _ => nan

def mul : JsNum → JsNum → JsNum
  | num a, num b => num (a * b)
  | _, _ => nan

/-- Division by a (member-count) natural, used for the centroid means;
the denominator is a group size and is never 0 where the code divides. -/
def divNat : JsNum → ℕ → JsNum
  | num a, n => if n = 0 then nan else num (a / (n : ℚ))
  | nan, _ => nan

/-- The comparison `Math.sqrt d <= r` for a rational radius `r`:
a NaN operand compares false, `Math.sqrt` of a negative is NaN (also
comparing false), and otherwise `sqrt d ≤ r ↔ 0 ≤ r ∧ d ≤ r * r`. -/
def sqrtLe : JsNum → ℚ → Bool
  | nan, _ => false
  | num d, r => if d < 0 then false else decide (0 ≤ r) && decide (d ≤ r * r)

@[simp] theorem add_nan_left (b : JsNum) : add nan b = nan := by cases b <;> rfl
@[simp] theorem add_nan_right (a : JsNum) : add a nan = nan := by cases a <;> rfl
@[simp] theorem sub_nan_left (b : JsNum) : sub nan b = nan := by cases b <;> rfl
@[simp] theorem sub_nan_right (a : JsNum) : sub a nan = nan := by cases a <;> rfl
@[simp] theorem mul_nan_left (b : JsNum) : mul nan b = nan := by cases b <;> rfl
@[simp] theorem mul_nan_right (a : JsNum) : mul a nan = nan := by cases a <;> rfl
@[simp] theorem sqrtLe_nan (r : ℚ) : sqrtLe nan r = false := rfl

/-- The embedded square-root comparison agrees with the real square root
on non-negative radicands: this justifies `sqrtLe` as the embedding of
`Math.sqrt d <= r`. -/
theorem sqrtLe_iff_sqrt_le (d r : ℚ) (hd : 0 ≤ d) :
    sqrtLe (num d) r = true ↔ Real.sqrt (d : ℝ) ≤ (r : ℝ) := by
  rw [sqrtLe, if_neg (not_lt.mpr hd)]
  simp only [Bool.and_eq_true, decide_eq_true_eq]
  constructor
  · rintro ⟨hr, hdr⟩
    have h1 : Real.sqrt (d : ℝ) ≤ Real.sqrt ((r : ℝ) * (r : ℝ)) := by
      apply Real.sqrt_le_sqrt
      exact_mod_cast hdr
    have h2 : Real.sqrt ((r : ℝ) * (r : ℝ)) = (r : ℝ) := by
      rw [Real.sqrt_mul_self (by exact_mod_cast hr)]
    linarith
  · intro h
    have hr : (0 : ℝ) ≤ (r : ℝ) := le_trans (Real.sqrt_nonneg _) h
    constructor
    · exact_mod_cast hr
    · have h1 : Real.sqrt (d : ℝ) * Real.sqrt (d : ℝ) ≤ (r : ℝ) * (r : ℝ) :=
        mul_le_mul h h (Real.sqrt_nonneg _) hr
      rw [Real.mul_self_sqrt (by exact_mod_cast hd)] at h1
      exact_mod_cast h1

end JsNum

/-!
## The union–find substrate

Embedding of the `UnionFind` class of `MapChart.tsx` lines 138–162 (the
class in `src/unnamed/part_001` lines 59–84 is character-identical).
The mutable `parent` array becomes a map `ℕ → ℕ` threaded through the
operations; the recursive `find` is given fuel `n` (the element count). -/

namespace UnionFind

/-- The constructor loop: `parent[i] = i` for every `i`. -/
def initParent (_n : ℕ) : ℕ → ℕ := fun i => i

/-- `find` with explicit fuel: `if (parent[i] !== i) parent[i] = find(parent[i]); return parent[i]`.
Returns the updated parent map together with the result. -/
def findAux : ℕ → (ℕ → ℕ) → ℕ → (ℕ → ℕ) × ℕ
  | 0, p, i => (p, i)
  | fuel + 1, p, i =>
      if p i = i then (p, i)
      else
        let pr := findAux fuel p (p i)
        (Function.update pr.1 i pr.2, pr.2)

/-- `find` on a structure of `n` elements (fuel `n` suffices whenever the
parent map is well-formed, `WF` below). -/
def find (n : ℕ) (p : ℕ → ℕ) (i : ℕ) : (ℕ → ℕ) × ℕ := findAux n p i

/-- `union(i, j)`: `rootI = find(i); rootJ = find(j); if (rootI !== rootJ) parent[rootJ] = rootI`. -/
def union (n : ℕ) (p : ℕ → ℕ) (i j : ℕ) : ℕ → ℕ :=
  let fi := find n p i
  let fj := find n fi.1 j
  if fi.2 = fj.2 then fj.1 else Function.update fj.1 fj.2 fi.2

/-- Pure (compression-free) fueled root lookup, used to state invariants. -/
def rootAux : ℕ → (ℕ → ℕ) → ℕ → ℕ
  | 0, _, i => i
  | fuel + 1, p, i => if p i = i then i else rootAux fuel p (p i)

/-- The root of `i` in a structure of `n` elements. -/
def root (n : ℕ) (p : ℕ → ℕ) (i : ℕ) : ℕ := rootAux n p i

def isRoot (p : ℕ → ℕ) (i : ℕ) : Prop := p i = i

instance (p : ℕ → ℕ) (i : ℕ) : Decidable (isRoot p i) := by
  unfold isRoot; infer_instance

/-- Parent indices of live elements stay in range. -/
def Bounded (n : ℕ) (p : ℕ → ℕ) : Prop := ∀ i < n, p i < n

/-- Well-formedness: the parent map encodes an acyclic forest, phrased
executably as "walking parent links from any live index reaches a
self-parent within `n` steps". -/
def WF (n : ℕ) (p : ℕ → ℕ) : Prop :=
  Bounded n p ∧ ∀ i < n, isRoot p (rootAux n p i)

instance (n : ℕ) (p : ℕ → ℕ) : Decidable (WF n p) := by
  unfold WF Bounded; infer_instance

theorem rootAux_of_isRoot {p : ℕ → ℕ} {i : ℕ} (h : isRoot p i) :
    ∀ f, rootAux f p i = i := by
  intro f
  cases f with
  | zero => rfl
  | succ f =>
    show (if p i = i then i else rootAux f p (p i)) = i
    rw [if_pos (show p i = i from h)]

theorem rootAux_succ (f : ℕ) (p : ℕ → ℕ) (i : ℕ) :
    rootAux (f + 1) p i = rootAux f p (p i) := by
  by_cases h : p i = i
  · simp [rootAux, h, rootAux_of_isRoot h]
  · simp [rootAux, h]

theorem rootAux_mono {p : ℕ → ℕ} :
    ∀ {f : ℕ} {i : ℕ}, isRoot p (rootAux f p i) → ∀ {g : ℕ}, f ≤ g →
      rootAux g p i = rootAux f p i := by
  intro f
  induction f with
  | zero =>
    intro i h g _
    exact rootAux_of_isRoot h g
  | succ f ih =>
    intro i h g hg
    obtain ⟨g, rfl⟩ : ∃ g', g = g' + 1 := ⟨g - 1, by omega⟩
    rw [rootAux_succ] at h ⊢
    rw [rootAux_succ]
    exact ih h (by omega)

theorem rootAux_eq_rootAux {p : ℕ → ℕ} {f g i : ℕ}
    (hf : isRoot p (rootAux f p i)) (hg : isRoot p (rootAux g p i)) :
    rootAux f p i = rootAux g p i := by
  rcases le_total f g with h | h
  · rw [rootAux_mono hf h]
  · rw [rootAux_mono hg h]

theorem rootAux_lt {n : ℕ} {p : ℕ → ℕ} (hb : Bounded n p) :
    ∀ (f : ℕ) {i : ℕ}, i < n → rootAux f p i < n := by
  intro f
  induction f with
  | zero => intro i hi; exact hi
  | succ f ih =>
    intro i hi
    rw [rootAux_succ]
    exact ih (hb i hi)

theorem isRoot_iterate_of_rootAux {p : ℕ → ℕ} :
    ∀ {f i : ℕ}, isRoot p (rootAux f p i) → ∃ k ≤ f, isRoot p (p^[k] i) := by
  intro f
  induction f with
  | zero => intro i h; exact ⟨0, le_refl _, h⟩
  | succ f ih =>
    intro i h
    rw [rootAux_succ] at h
    obtain ⟨k, hk, hr⟩ := ih h
    refine ⟨k + 1, by omega, ?_⟩
    rwa [Function.iterate_succ_apply]

theorem rootAux_isRoot_of_iterate {p : ℕ → ℕ} :
    ∀ {f i : ℕ}, (∃ k ≤ f, isRoot p (p^[k] i)) → isRoot p (rootAux f p i) := by
  intro f
  induction f with
  | zero =>
    rintro i ⟨k, hk, hr⟩
    interval_cases k
    exact hr
  | succ f ih =>
    rintro i ⟨k, hk, hr⟩
    by_cases hroot : p i = i
    · rwa [rootAux_of_isRoot hroot]
    · rw [rootAux_succ]
      apply ih
      cases k with
      | zero => exact absurd hr hroot
      | succ k => exact ⟨k, by omega, by rwa [Function.iterate_succ_apply] at hr⟩

theorem iterate_isRoot_fix {p : ℕ → ℕ} {x : ℕ} (h : isRoot p x) :
    ∀ j, p^[j] x = x := by
  intro j
  induction j with
  | zero => rfl
  | succ j ih => rw [Function.iterate_succ_apply, h, ih]

theorem iterate_lt {n : ℕ} {p : ℕ → ℕ} (hb : Bounded n p) {i : ℕ} (hi : i < n) :
    ∀ k, p^[k] i < n := by
  intro k
  induction k with
  | zero => exact hi
  | succ k ih => rw [Function.iterate_succ_apply', ]; exact hb _ ih

/-- If the iterate sequence collides at positions `s < t` and reaches a
root somewhere, then the value at position `s` is already that root. -/
theorem reach_from_collision {p : ℕ → ℕ} {i s t k : ℕ} (hst : s < t)
    (heq : p^[s] i = p^[t] i) (hk : isRoot p (p^[k] i)) :
    isRoot p (p^[s] i) := by
  set d := t - s with hd
  have hd1 : 1 ≤ d := by omega
  have hper : ∀ m, p^[s + m * d] i = p^[s] i := by
    intro m
    induction m with
    | zero => simp
    | succ m ih =>
      have harith : s + (m + 1) * d = d + (s + m * d) := by ring
      rw [harith, Function.iterate_add_apply, ih, ← Function.iterate_add_apply]
      have harith2 : d + s = t := by omega
      rw [harith2, ← heq]
  have hK : s + k * d ≥ k := by nlinarith
  have h1 : p^[s] i = p^[(s + k * d - k) + k] i := by
    rw [show (s + k * d - k) + k = s + k * d by omega, hper]
  have h2 : p^[(s + k * d - k) + k] i = p^[k] i := by
    rw [Function.iterate_add_apply, iterate_isRoot_fix hk]
  rw [h1, h2]
  exact hk

/-- Pigeonhole: if walking parent links from a live index ever reaches a
root at all, it reaches one within `n` steps. -/
theorem reach_within {n : ℕ} {p : ℕ → ℕ} (hb : Bounded n p) {i : ℕ} (hi : i < n)
    {k : ℕ} (hk : isRoot p (p^[k] i)) : isRoot p (rootAux n p i) := by
  apply rootAux_isRoot_of_iterate
  by_cases hkn : k ≤ n
  · exact ⟨k, hkn, hk⟩
  · -- collision among the first n+1 iterates
    have hmaps : ∀ m ∈ Finset.range (n + 1), p^[m] i ∈ Finset.range n := by
      intro m _
      simpa using iterate_lt hb hi m
    have hcard : (Finset.range n).card < (Finset.range (n + 1)).card := by
      simp
    obtain ⟨s, hs, t, ht, hst, heq⟩ :=
      Finset.exists_ne_map_eq_of_card_lt_of_maps_to hcard hmaps
    simp only [Finset.mem_range] at hs ht
    -- normalise to s < t
    rcases lt_or_gt_of_ne hst with hlt | hgt
    · exact ⟨s, by omega, reach_from_collision hlt heq hk⟩
    · exact ⟨t, by omega, reach_from_collision hgt heq.symm hk⟩

theorem WF_initParent (n : ℕ) : WF n (initParent n) := by
  constructor
  · intro i hi; exact hi
  · intro i hi
    cases n with
    | zero => omega
    | succ m => simp [rootAux, initParent, isRoot]

theorem root_isRoot {n : ℕ} {p : ℕ → ℕ} (h : WF n p) {i : ℕ} (hi : i < n) :
    isRoot p (root n p i) := h.2 i hi

theorem root_lt {n : ℕ} {p : ℕ → ℕ} (h : WF n p) {i : ℕ} (hi : i < n) :
    root n p i < n := rootAux_lt h.1 n hi

theorem root_of_isRoot {n : ℕ} {p : ℕ → ℕ} {i : ℕ} (h : isRoot p i) :
    root n p i = i := rootAux_of_isRoot h n

theorem root_parent {n : ℕ} {p : ℕ → ℕ} (h : WF n p) {i : ℕ} (hi : i < n) :
    root n p (p i) = root n p i := by
  by_cases hr : p i = i
  · rw [hr]
  · cases n with
    | zero => omega
    | succ m =>
      have h1 : root (m + 1) p i = rootAux m p (p i) := rootAux_succ m p i
      have h2 : isRoot p (rootAux m p (p i)) := by
        rw [← h1]; exact h.2 i hi
      have h3 : isRoot p (rootAux (m + 1) p (p i)) := h.2 (p i) (h.1 i hi)
      rw [h1]
      exact rootAux_eq_rootAux h3 h2

theorem root_root {n : ℕ} {p : ℕ → ℕ} (h : WF n p) {i : ℕ} (hi : i < n) :
    root n p (root n p i) = root n p i := root_of_isRoot (root_isRoot h hi)

theorem root_eq_self_iff {n : ℕ} {p : ℕ → ℕ} (h : WF n p) {i : ℕ} (hi : i < n) :
    root n p i = i ↔ isRoot p i :=
  ⟨fun he => he ▸ root_isRoot h hi, root_of_isRoot⟩

/-- Path-compression core: re-pointing a non-root `a` directly at its root
changes no `rootAux` value and keeps every reached node a root. -/
theorem rootAux_update_to_root {n : ℕ} {p : ℕ → ℕ} (h : WF n p) {a : ℕ}
    (ha : a < n) (hna : ¬ isRoot p a) :
    ∀ f, ∀ j, j < n → isRoot p (rootAux f p j) →
      rootAux f (Function.update p a (root n p a)) j = rootAux f p j ∧
      isRoot (Function.update p a (root n p a))
        (rootAux f (Function.update p a (root n p a)) j) := by
  set r := root n p a with hrdef
  set q := Function.update p a r with hqdef
  have hra : r ≠ a := fun he => hna ((root_eq_self_iff h ha).mp he)
  have hrootr : isRoot p r := root_isRoot h ha
  have hqr : isRoot q r := by
    show q r = r
    rw [hqdef, Function.update_noteq hra]
    exact hrootr
  intro f
  induction f with
  | zero =>
    intro j hj hroot
    have hja : j ≠ a := fun he => hna (he ▸ hroot)
    refine ⟨rfl, ?_⟩
    show q j = j
    rw [hqdef, Function.update_noteq hja]
    exact hroot
  | succ f ih =>
    intro j hj hroot
    by_cases hjroot : isRoot p j
    · have hja : j ≠ a := fun he => hna (he ▸ hjroot)
      have hqj : isRoot q j := by
        show q j = j
        rw [hqdef, Function.update_noteq hja]
        exact hjroot
      rw [rootAux_of_isRoot hqj, rootAux_of_isRoot hjroot]
      exact ⟨rfl, hqj⟩
    · by_cases hja : j = a
      · subst hja
        have hLHS : rootAux (f + 1) q j = r := by
          rw [rootAux_succ]
          have hqa : q j = r := by rw [hqdef]; exact Function.update_same j r p
          rw [hqa, rootAux_of_isRoot hqr]
        have hRHS : rootAux (f + 1) p j = r := by
          have h1 : isRoot p (rootAux n p j) := h.2 j hj
          exact rootAux_eq_rootAux hroot h1 |>.trans rfl
        rw [hLHS, hRHS]
        exact ⟨rfl, hqr⟩
      · have hqj : q j = p j := by rw [hqdef]; exact Function.update_noteq hja r p
        rw [rootAux_succ, rootAux_succ, hqj]
        have hroot' : isRoot p (rootAux f p (p j)) := by
          rwa [rootAux_succ] at hroot
        exact ih (p j) (h.1 j hj) hroot'

/-- Re-pointing a live index at its own root preserves well-formedness and
all root values. -/
theorem update_to_root_spec {n : ℕ} {p : ℕ → ℕ} (h : WF n p) {a : ℕ} (ha : a < n) :
    WF n (Function.update p a (root n p a)) ∧
    ∀ j, j < n → root n (Function.update p a (root n p a)) j = root n p j := by
  by_cases hna : isRoot p a
  · have hv : Function.update p a (root n p a) = p := by
      funext x
      by_cases hx : x = a
      · subst hx
        rw [Function.update_same, root_of_isRoot hna]
        exact hna.symm
      · rw [Function.update_noteq hx]
    rw [hv]
    exact ⟨h, fun j _ => rfl⟩
  · have hmain := rootAux_update_to_root h ha hna n
    constructor
    · constructor
      · intro x hx
        by_cases hxa : x = a
        · subst hxa
          rw [Function.update_same]
          exact root_lt h ha
        · rw [Function.update_noteq hxa]
          exact h.1 x hx
      · intro j hj
        exact (hmain j hj (h.2 j hj)).2
    · intro j hj
      exact (hmain j hj (h.2 j hj)).1

theorem findAux_succ_of_eq {fuel : ℕ} {p : ℕ → ℕ} {i : ℕ} (h : p i = i) :
    findAux (fuel + 1) p i = (p, i) := by
  simp [findAux, h]

theorem findAux_succ_of_ne {fuel : ℕ} {p : ℕ → ℕ} {i : ℕ} (h : ¬ p i = i) :
    findAux (fuel + 1) p i =
      (Function.update (findAux fuel p (p i)).1 i (findAux fuel p (p i)).2,
        (findAux fuel p (p i)).2) := by
  simp [findAux, h]

/-- Correctness of the path-compressing `find`: it returns the root, keeps
the structure well-formed, and changes no root value. -/
theorem findAux_spec {n : ℕ} :
    ∀ (fuel : ℕ) (p : ℕ → ℕ) (i : ℕ), WF n p → i < n →
      isRoot p (rootAux fuel p i) →
      (findAux fuel p i).2 = root n p i ∧ WF n (findAux fuel p i).1 ∧
      ∀ j, j < n → root n (findAux fuel p i).1 j = root n p j := by
  intro fuel
  induction fuel with
  | zero =>
    intro p i h hi hroot
    exact ⟨(root_of_isRoot hroot).symm, h, fun j _ => rfl⟩
  | succ fuel ih =>
    intro p i h hi hroot
    by_cases hpi : p i = i
    · rw [findAux_succ_of_eq hpi]
      exact ⟨(root_of_isRoot hpi).symm, h, fun j _ => rfl⟩
    · rw [findAux_succ_of_ne hpi]
      have hroot' : isRoot p (rootAux fuel p (p i)) := by
        rwa [rootAux_succ] at hroot
      obtain ⟨hval, hwf, hroots⟩ := ih p (p i) h (h.1 i hi) hroot'
      have hval' : (findAux fuel p (p i)).2 = root n p i := by
        rw [hval]; exact root_parent h hi
      have hval'' : (findAux fuel p (p i)).2 = root n (findAux fuel p (p i)).1 i := by
        rw [hval', hroots i hi]
      obtain ⟨hwf2, hroots2⟩ := update_to_root_spec hwf hi
      refine ⟨hval', ?_, ?_⟩
      · rw [hval'']; exact hwf2
      · intro j hj
        rw [hval'']
        rw [hroots2 j hj, hroots j hj]

theorem find_spec {n : ℕ} {p : ℕ → ℕ} (h : WF n p) {i : ℕ} (hi : i < n) :
    (find n p i).2 = root n p i ∧ WF n (find n p i).1 ∧
    ∀ j, j < n → root n (find n p i).1 j = root n p j :=
  findAux_spec n p i h hi (h.2 i hi)

/-- Linking root `rj` under root `ri`: every root value is rewritten by
"if it was `rj` it becomes `ri`", at one extra step of fuel. -/
theorem rootAux_update_link {n : ℕ} {p : ℕ → ℕ} (h : WF n p) {ri rj : ℕ}
    (hri : ri < n) (hrootI : isRoot p ri) (hrootJ : isRoot p rj)
    (hne : ri ≠ rj) :
    ∀ f, ∀ j, j < n → isRoot p (rootAux f p j) →
      isRoot (Function.update p rj ri) (rootAux (f + 1) (Function.update p rj ri) j) ∧
      rootAux (f + 1) (Function.update p rj ri) j =
        (if rootAux f p j = rj then ri else rootAux f p j) := by
  set q := Function.update p rj ri with hqdef
  have hqri : isRoot q ri := by
    show q ri = ri
    rw [hqdef, Function.update_noteq hne]
    exact hrootI
  have hqrj : q rj = ri := by rw [hqdef]; exact Function.update_same rj ri p
  have hrootcase : ∀ f j, isRoot p j →
      isRoot q (rootAux (f + 1) q j) ∧
      rootAux (f + 1) q j = (if j = rj then ri else j) := by
    intro f j hjroot
    by_cases hjrj : j = rj
    · subst hjrj
      rw [rootAux_succ, hqrj, rootAux_of_isRoot hqri, if_pos rfl]
      exact ⟨hqri, rfl⟩
    · have hqj : isRoot q j := by
        show q j = j
        rw [hqdef, Function.update_noteq hjrj]
        exact hjroot
      rw [rootAux_of_isRoot hqj, if_neg hjrj]
      exact ⟨hqj, rfl⟩
  intro f
  induction f with
  | zero =>
    intro j hj hroot
    have := hrootcase 0 j hroot
    simpa using this
  | succ f ih =>
    intro j hj hroot
    by_cases hjroot : isRoot p j
    · have := hrootcase (f + 1) j hjroot
      rw [rootAux_of_isRoot hjroot]
      exact this
    · have hjrj : j ≠ rj := fun he => hjroot (he ▸ hrootJ)
      have hqj : q j = p j := by rw [hqdef]; exact Function.update_noteq hjrj ri p
      have hroot' : isRoot p (rootAux f p (p j)) := by
        rwa [rootAux_succ] at hroot
      have hstep : rootAux (f + 1 + 1) q j = rootAux (f + 1) q (p j) := by
        rw [rootAux_succ, hqj]
      rw [hstep, rootAux_succ f p j]
      exact ih (p j) (h.1 j hj) hroot'

/-- Behaviour of one `union(i, j)` call: the structure stays well-formed,
and root values change exactly by redirecting `j`'s root to `i`'s root. -/
theorem union_spec {n : ℕ} {p : ℕ → ℕ} (h : WF n p) {i j : ℕ}
    (hi : i < n) (hj : j < n) :
    WF n (union n p i j) ∧
    ∀ a, a < n → root n (union n p i j) a =
      if root n p a = root n p j then root n p i else root n p a := by
  obtain ⟨hfi2, hfiWF, hfiroots⟩ := find_spec h hi
  obtain ⟨hfj2, hfjWF, hfjroots⟩ := find_spec hfiWF hj
  have hfj2' : (find n (find n p i).1 j).2 = root n p j := by
    rw [hfj2, hfiroots j hj]
  by_cases heq : (find n p i).2 = (find n (find n p i).1 j).2
  · have hu : union n p i j = (find n (find n p i).1 j).1 := by
      unfold union
      rw [if_pos heq]
    rw [hu]
    have hrr : root n p i = root n p j := by
      rw [← hfi2, ← hfj2', heq]
    refine ⟨hfjWF, ?_⟩
    intro a ha
    rw [hfjroots a ha, hfiroots a ha]
    by_cases hc : root n p a = root n p j
    · rw [if_pos hc, hrr, hc]
    · rw [if_neg hc]
  · have hu : union n p i j =
        Function.update (find n (find n p i).1 j).1 (find n (find n p i).1 j).2
          (find n p i).2 := by
      unfold union
      rw [if_neg heq]
    set P := (find n (find n p i).1 j).1 with hPdef
    have hri : root n p i < n := root_lt h hi
    have hrj : root n p j < n := root_lt h hj
    have hRI : root n P (root n p i) = root n p i := by
      rw [hfjroots _ hri, hfiroots _ hri]
      have : root n p (root n p i) = root n p i := root_root h hi
      exact this
    have hRJ : root n P (root n p j) = root n p j := by
      rw [hfjroots _ hrj, hfiroots _ hrj]
      exact root_root h hj
    have hrootI : isRoot P (root n p i) := (root_eq_self_iff hfjWF hri).mp hRI
    have hrootJ : isRoot P (root n p j) := (root_eq_self_iff hfjWF hrj).mp hRJ
    have hne : root n p i ≠ root n p j := by
      rw [← hfi2, ← hfj2']
      exact heq
    rw [hu, ← hfi2, ← hfj2']
    rw [hfi2, hfj2']
    have hlink := rootAux_update_link hfjWF hri hrootI hrootJ hne
    set Q := Function.update P (root n p j) (root n p i) with hQdef
    have hQb : Bounded n Q := by
      intro x hx
      by_cases hxr : x = root n p j
      · subst hxr
        rw [hQdef, Function.update_same]
        exact hri
      · rw [hQdef, Function.update_noteq hxr]
        exact hfjWF.1 x hx
    have hQmain : ∀ a, a < n →
        isRoot Q (rootAux (n + 1) Q a) ∧
        rootAux (n + 1) Q a =
          (if rootAux n P a = root n p j then root n p i else rootAux n P a) := by
      intro a ha
      exact hlink n a ha (hfjWF.2 a ha)
    have hQWF : WF n Q := by
      refine ⟨hQb, ?_⟩
      intro a ha
      obtain ⟨hroot1, _⟩ := hQmain a ha
      obtain ⟨k, hk, hrk⟩ := isRoot_iterate_of_rootAux hroot1
      exact reach_within hQb ha hrk
    refine ⟨hQWF, ?_⟩
    intro a ha
    obtain ⟨hroot1, hval⟩ := hQmain a ha
    have hroot2 : isRoot Q (rootAux n Q a) := hQWF.2 a ha
    have heqfuel : rootAux n Q a = rootAux (n + 1) Q a :=
      rootAux_eq_rootAux hroot2 hroot1
    show rootAux n Q a = _
    rw [heqfuel, hval]
    have hPa : rootAux n P a = root n p a := by
      have h1 : root n P a = root n p a := by
        rw [hfjroots a ha, hfiroots a ha]
      exact h1
    rw [hPa]

/-- A sequence of `union` calls, in order. -/
def runUnions (n : ℕ) (ops : List (ℕ × ℕ)) (p : ℕ → ℕ) : ℕ → ℕ :=
  ops.foldl (fun q e => union n q e.1 e.2) p

@[simp] theorem runUnions_nil (n : ℕ) (p : ℕ → ℕ) : runUnions n [] p = p := rfl

theorem runUnions_cons (n : ℕ) (e : ℕ × ℕ) (ops : List (ℕ × ℕ)) (p : ℕ → ℕ) :
    runUnions n (e :: ops) p = runUnions n ops (union n p e.1 e.2) := rfl

theorem runUnions_snoc (n : ℕ) (ops : List (ℕ × ℕ)) (e : ℕ × ℕ) (p : ℕ → ℕ) :
    runUnions n (ops ++ [e]) p = union n (runUnions n ops p) e.1 e.2 := by
  simp [runUnions, List.foldl_append]

theorem runUnions_WF {n : ℕ} {ops : List (ℕ × ℕ)} {p : ℕ → ℕ} (h : WF n p)
    (hops : ∀ e ∈ ops, e.1 < n ∧ e.2 < n) : WF n (runUnions n ops p) := by
  induction ops generalizing p with
  | nil => exact h
  | cons e ops ih =>
    rw [runUnions_cons]
    have he := hops e (List.mem_cons_self e ops)
    exact ih ((union_spec h he.1 he.2).1) (fun e' he' => hops e' (List.mem_cons_of_mem e he'))

/-- Two indices are linked by the operation list when some operation joins
them in either order. -/
def linked (ops : List (ℕ × ℕ)) (a b : ℕ) : Prop := (a, b) ∈ ops ∨ (b, a) ∈ ops

/-- Connectivity of the undirected graph whose edges are the operations. -/
def joined (ops : List (ℕ × ℕ)) : ℕ → ℕ → Prop :=
  Relation.ReflTransGen (linked ops)

theorem linked_symm {ops : List (ℕ × ℕ)} {a b : ℕ} (h : linked ops a b) :
    linked ops b a := h.symm

theorem joined_refl (ops : List (ℕ × ℕ)) (a : ℕ) : joined ops a a :=
  Relation.ReflTransGen.refl

theorem joined_trans {ops : List (ℕ × ℕ)} {a b c : ℕ}
    (h1 : joined ops a b) (h2 : joined ops b c) : joined ops a c :=
  Relation.ReflTransGen.trans h1 h2

theorem joined_symm {ops : List (ℕ × ℕ)} {a b : ℕ} (h : joined ops a b) :
    joined ops b a := by
  induction h with
  | refl => exact joined_refl ops a
  | tail _ hcb ih =>
    exact joined_trans (Relation.ReflTransGen.single (linked_symm hcb)) ih

theorem joined_mono {ops ops' : List (ℕ × ℕ)} (hsub : ∀ e ∈ ops, e ∈ ops')
    {a b : ℕ} (h : joined ops a b) : joined ops' a b := by
  refine Relation.ReflTransGen.mono ?_ h
  rintro x y (hxy | hyx)
  · exact Or.inl (hsub _ hxy)
  · exact Or.inr (hsub _ hyx)

theorem joined_nil {a b : ℕ} (h : joined [] a b) : a = b := by
  induction h with
  | refl => rfl
  | tail _ hcb ih => rcases hcb with h' | h' <;> simp at h'

/-- Adding one edge to the graph: connectivity grows exactly by the chains
that use the new edge once. -/
theorem joined_append_single {ops : List (ℕ × ℕ)} {e : ℕ × ℕ} {a b : ℕ} :
    joined (ops ++ [e]) a b ↔
      joined ops a b ∨ (joined ops a e.1 ∧ joined ops e.2 b) ∨
        (joined ops a e.2 ∧ joined ops e.1 b) := by
  constructor
  · intro h
    induction h with
    | refl => exact Or.inl (joined_refl ops a)
    | tail hac hcb ih =>
      rename_i m k
      rcases hcb with hmem | hmem
      · rw [List.mem_append, List.mem_singleton] at hmem
        rcases hmem with hops | hE
        · -- an old edge (m, k)
          have hstep : joined ops m k := Relation.ReflTransGen.single (Or.inl hops)
          rcases ih with h1 | ⟨h1, h2⟩ | ⟨h1, h2⟩
          · exact Or.inl (joined_trans h1 hstep)
          · exact Or.inr (Or.inl ⟨h1, joined_trans h2 hstep⟩)
          · exact Or.inr (Or.inr ⟨h1, joined_trans h2 hstep⟩)
        · -- the new edge, traversed forwards: m = e.1, k = e.2
          have hm1 : m = e.1 := by rw [← hE]
          have hk2 : k = e.2 := by rw [← hE]
          rcases ih with h1 | ⟨h1, h2⟩ | ⟨h1, h2⟩
          · refine Or.inr (Or.inl ⟨?_, ?_⟩)
            · rw [← hm1]; exact h1
            · rw [hk2]; exact joined_refl ops e.2
          · refine Or.inr (Or.inl ⟨h1, ?_⟩)
            rw [hk2]; exact joined_refl ops e.2
          · refine Or.inl ?_
            rw [hk2]; exact h1
      · rw [List.mem_append, List.mem_singleton] at hmem
        rcases hmem with hops | hE
        · have hstep : joined ops m k := Relation.ReflTransGen.single (Or.inr hops)
          rcases ih with h1 | ⟨h1, h2⟩ | ⟨h1, h2⟩
          · exact Or.inl (joined_trans h1 hstep)
          · exact Or.inr (Or.inl ⟨h1, joined_trans h2 hstep⟩)
          · exact Or.inr (Or.inr ⟨h1, joined_trans h2 hstep⟩)
        · -- the new edge, traversed backwards: m = e.2, k = e.1
          have hk1 : k = e.1 := by rw [← hE]
          have hm2 : m = e.2 := by rw [← hE]
          rcases ih with h1 | ⟨h1, h2⟩ | ⟨h1, h2⟩
          · refine Or.inr (Or.inr ⟨?_, ?_⟩)
            · rw [← hm2]; exact h1
            · rw [hk1]; exact joined_refl ops e.1
          · refine Or.inl ?_
            rw [hk1]; exact h1
          · refine Or.inr (Or.inr ⟨h1, ?_⟩)
            rw [hk1]; exact joined_refl ops e.1
  · have hsub : ∀ x ∈ ops, x ∈ ops ++ [e] := fun x hx => List.mem_append_left _ hx
    have hestep : joined (ops ++ [e]) e.1 e.2 :=
      Relation.ReflTransGen.single (Or.inl (List.mem_append_right _ (List.mem_singleton.mpr rfl)))
    rintro (h1 | ⟨h1, h2⟩ | ⟨h1, h2⟩)
    · exact joined_mono hsub h1
    · exact joined_trans (joined_mono hsub h1)
        (joined_trans hestep (joined_mono hsub h2))
    · exact joined_trans (joined_mono hsub h1)
        (joined_trans (joined_symm hestep) (joined_mono hsub h2))

theorem root_initParent (n : ℕ) (i : ℕ) : root n (initParent n) i = i :=
  root_of_isRoot rfl

/-- The central characterization: after running the unions of `ops` on a
fresh structure, two live indices have equal roots exactly when they are
connected in the undirected graph of the operations. -/
theorem runUnions_root_iff {n : ℕ} (ops : List (ℕ × ℕ))
    (hops : ∀ e ∈ ops, e.1 < n ∧ e.2 < n) :
    ∀ a, a < n → ∀ b, b < n →
      (root n (runUnions n ops (initParent n)) a =
        root n (runUnions n ops (initParent n)) b ↔ joined ops a b) := by
  induction ops using List.reverseRecOn with
  | nil =>
    intro a ha b hb
    rw [runUnions_nil, root_initParent, root_initParent]
    exact ⟨fun h => h ▸ joined_refl [] a, joined_nil⟩
  | append_singleton l e ih =>
    intro a ha b hb
    have hl : ∀ x ∈ l, x.1 < n ∧ x.2 < n :=
      fun x hx => hops x (List.mem_append_left _ hx)
    have he : e.1 < n ∧ e.2 < n :=
      hops e (List.mem_append_right _ (List.mem_singleton.mpr rfl))
    have hWF : WF n (runUnions n l (initParent n)) :=
      runUnions_WF (WF_initParent n) hl
    set P := runUnions n l (initParent n) with hP
    have hrw : runUnions n (l ++ [e]) (initParent n) = union n P e.1 e.2 :=
      runUnions_snoc n l e (initParent n)
    obtain ⟨_, hroots⟩ := union_spec hWF he.1 he.2
    rw [hrw, hroots a ha, hroots b hb, joined_append_single]
    have ih1 : root n P a = root n P b ↔ joined l a b := ih hl a ha b hb
    have ih2 : root n P a = root n P e.1 ↔ joined l a e.1 := ih hl a ha e.1 he.1
    have ih3 : root n P e.2 = root n P b ↔ joined l e.2 b := ih hl e.2 he.2 b hb
    have ih4 : root n P a = root n P e.2 ↔ joined l a e.2 := ih hl a ha e.2 he.2
    have ih5 : root n P e.1 = root n P b ↔ joined l e.1 b := ih hl e.1 he.1 b hb
    rw [← ih1, ← ih2, ← ih3, ← ih4, ← ih5]
    split_ifs <;> omega

end UnionFind

/-!
## The clustering engine

Embedding of the `clusters` computation of `MapChart.tsx` lines 197–283.
The `WebMercatorViewport` projector is an external collaborator (spec §2,
§6); the engine receives it as a function from (longitude, latitude) to
screen coordinates.  The pixel radius, the constant `clusterRadius = 50`
in the source, is the `radiusPx` parameter of the spec's
`cluster(points, viewport, radiusPx)` interface and is passed explicitly;
`clusterRadius`/`clustersDefault` below instantiate it to 50. -/

namespace Engine

/-- One rawData entry: `{ location: { latitude, longitude }, name, metadata: { status } }`. -/
structure GeoPoint where
  latitude : JsNum
  longitude : JsNum
  name : String
  status : String
deriving DecidableEq, Repr

instance : Inhabited GeoPoint := ⟨⟨JsNum.nan, JsNum.nan, "", ""⟩⟩

/-- A projected point: `{ ...point, index, screenX: x, screenY: y }`. -/
structure ProjPoint where
  point : GeoPoint
  index : ℕ
  screenX : JsNum
  screenY : JsNum
deriving DecidableEq, Repr

instance : Inhabited ProjPoint := ⟨⟨default, 0, JsNum.nan, JsNum.nan⟩⟩

/-- The external projector: `viewport.project([longitude, latitude])` for a
fixed viewport. -/
def Projector : Type := JsNum → JsNum → JsNum × JsNum

/-- `rawData.map((point, index) => ({ ...point, index, screenX: x, screenY: y }))`. -/
def projectPoints (proj : Projector) (pts : List GeoPoint) : List ProjPoint :=
  pts.enum.map (fun ip =>
    { point := ip.2, index := ip.1,
      screenX := (proj ip.2.longitude ip.2.latitude).1,
      screenY := (proj ip.2.longitude ip.2.latitude).2 })

/-- The body of the pairwise distance test:
`dx = pi.screenX - pj.screenX; dy = ...; sqrt(dx*dx + dy*dy) <= r`. -/
def close (pp : List ProjPoint) (r : ℚ) (i j : ℕ) : Bool :=
  let dx := JsNum.sub (pp.getD i default).screenX (pp.getD j default).screenX
  let dy := JsNum.sub (pp.getD i default).screenY (pp.getD j default).screenY
  JsNum.sqrtLe (JsNum.add (JsNum.mul dx dx) (JsNum.mul dy dy)) r

/-- The index pairs of the double loop `for i; for j = i+1 ...`, in order
(the inner loop runs over the j in range with i < j, i.e. j = i+1 .. n-1). -/
def allPairs (n : ℕ) : List (ℕ × ℕ) :=
  (List.range n).flatMap (fun i => ((List.range n).filter (fun j => i < j)).map (fun j => (i, j)))

/-- The pairs on which the loop actually calls `uf.union(i, j)`. -/
def closePairs (pp : List ProjPoint) (r : ℚ) : List (ℕ × ℕ) :=
  (allPairs pp.length).filter (fun e => close pp r e.1 e.2)

/-- The double loop: union every pair within the radius. -/
def unionPass (pp : List ProjPoint) (r : ℚ) : ℕ → ℕ :=
  (allPairs pp.length).foldl
    (fun p e => if close pp r e.1 e.2 then UnionFind.union pp.length p e.1 e.2 else p)
    (UnionFind.initParent pp.length)

/-- The grouping loop `for i { root = uf.find(i); groups[root].push(pp[i]) }`,
with the path-compressing `find` threading its state. Returns the final
parent map and the per-index root list. -/
def assignRoots (n : ℕ) (p : ℕ → ℕ) : (ℕ → ℕ) × List ℕ :=
  (List.range n).foldl
    (fun st i =>
      let fr := UnionFind.find n st.1 i
      (fr.1, st.2 ++ [fr.2]))
    (p, [])

/-- The groups object read off by `Object.values(groups)`: JavaScript
iterates integer-like keys in ascending numeric order, and each group holds
its members in push (ascending index) order. -/
def groupsIdx (n : ℕ) (p : ℕ → ℕ) : List (List ℕ) :=
  let roots := (assignRoots n p).2
  ((List.range n).filter (fun r => roots.contains r)).map
    (fun r => (List.range n).filter (fun i => roots.getD i 0 = r))

/-- The partition of the projected points produced by the clustering pass. -/
def groups (pp : List ProjPoint) (r : ℚ) : List (List ProjPoint) :=
  (groupsIdx pp.length (unionPass pp r)).map
    (fun g => g.map (fun i => pp.getD i default))

/-- `statusCounts[status] = (statusCounts[status] || 0) + 1`, on an
insertion-ordered association list (JS string keys iterate in insertion
order). -/
def bump : List (String × ℕ) → String → List (String × ℕ)
  | [], s => [(s, 1)]
  | (t, c) :: rest, s => if t = s then (t, c + 1) :: rest else (t, c) :: bump rest s

/-- `group.forEach(p => statusCounts[p.metadata.status] = ... + 1)`. -/
def statusCounts (g : List ProjPoint) : List (String × ℕ) :=
  g.foldl (fun m p => bump m p.point.status) []

/-- The numeric value of a digit character, if any. -/
def charDigit? (c : Char) : Option ℕ :=
  if '0' ≤ c ∧ c ≤ '9' then some (c.toNat - '0'.toNat) else none

/-- Base-10 value of a digit sequence; `none` on any non-digit. -/
def digitsVal : List Char → ℕ → Option ℕ
  | [], acc => some acc
  | c :: cs, acc =>
      match charDigit? c with
      | some d => digitsVal cs (acc * 10 + d)
      | none => none

/-- ECMAScript array-index test: a string property key counts as an array
index when it is the canonical decimal numeral (no leading zero except
"0" itself) of an integer below 2^32 - 1; returns that integer. -/
def jsIndexVal? (s : String) : Option ℕ :=
  match s.data with
  | [] => none
  | c :: cs =>
      match digitsVal (c :: cs) 0 with
      | none => none
      | some n =>
          if c = '0' ∧ cs ≠ [] then none
          else if n < 2 ^ 32 - 1 then some n else none

def insertByIdx (kv : String × ℕ) : List (String × ℕ) → List (String × ℕ)
  | [] => [kv]
  | kv' :: rest =>
      if (jsIndexVal? kv.1).getD 0 ≤ (jsIndexVal? kv'.1).getD 0 then kv :: kv' :: rest
      else kv' :: insertByIdx kv rest

def sortByIdx : List (String × ℕ) → List (String × ℕ)
  | [] => []
  | kv :: rest => insertByIdx kv (sortByIdx rest)

/-- ECMAScript own-property enumeration order for a string-keyed object
(`Object.keys`): array-index-like keys first, in ascending numeric order,
then the remaining string keys in insertion order. -/
def jsKeysOrder (m : List (String × ℕ)) : List (String × ℕ) :=
  sortByIdx (m.filter (fun kv => (jsIndexVal? kv.1).isSome)) ++
    m.filter (fun kv => (jsIndexVal? kv.1).isNone)

/-- `let dominantStatus = group[0].metadata.status; let maxCount = 0;
Object.keys(statusCounts).forEach(status => if (count > maxCount) ...)`;
the keys are visited in ECMAScript enumeration order. -/
def dominantStatus (g : List ProjPoint) : String :=
  ((jsKeysOrder (statusCounts g)).foldl
    (fun acc kv => if kv.2 > acc.2 then kv else acc)
    ((g.headD default).point.status, 0)).1

/-- `group.reduce((sum, p) => sum + p.location.latitude, 0)`. -/
def sumLat (g : List ProjPoint) : JsNum :=
  g.foldl (fun s p => JsNum.add s p.point.latitude) (JsNum.num 0)

def sumLon (g : List ProjPoint) : JsNum :=
  g.foldl (fun s p => JsNum.add s p.point.longitude) (JsNum.num 0)

/-- `"cluster-" + group.map(p => p.index).join("-")`. -/
def clusterId (g : List ProjPoint) : String :=
  "cluster-" ++ String.intercalate "-" (g.map (fun p => toString p.index))

/-- The output entity: either a lone point (`isCluster: false`) or a
cluster record `{ id, location: centroid, metadata: { statusCounts, count,
dominantStatus }, isCluster: true }`. -/
inductive RenderEntity where
  | single : ProjPoint → RenderEntity
  | cluster : String → JsNum → JsNum → List (String × ℕ) → ℕ → String → RenderEntity
deriving DecidableEq, Repr

/-- Entity assembly for one group (`group.length === 1` branch vs the
cluster branch). -/
def entityOf (g : List ProjPoint) : RenderEntity :=
  if g.length = 1 then RenderEntity.single (g.headD default)
  else
    RenderEntity.cluster (clusterId g)
      (JsNum.divNat (sumLat g) g.length)
      (JsNum.divNat (sumLon g) g.length)
      (statusCounts g)
      g.length
      (dominantStatus g)

/-- The full clustering pass (the `useMemo` body): project, union, group,
assemble; `if (n === 0) return []`. -/
def clusters (pts : List GeoPoint) (proj : Projector) (r : ℚ) : List RenderEntity :=
  let pp := projectPoints proj pts
  if pp.length = 0 then []
  else (groups pp r).map entityOf

/-- `const clusterRadius = 50` in the source. -/
def clusterRadius : ℚ := 50

/-- The engine exactly as the source runs it, with the radius fixed to 50. -/
def clustersDefault (pts : List GeoPoint) (proj : Projector) : List RenderEntity :=
  clusters pts proj clusterRadius

end Engine

namespace Engine

/-! ### Characterizing the union pass -/

theorem foldl_filter_step {α β : Type} (f : β → α → β) (q : α → Bool) :
    ∀ (l : List α) (b : β),
      l.foldl (fun acc x => if q x then f acc x else acc) b = (l.filter q).foldl f b := by
  intro l
  induction l with
  | nil => intro b; rfl
  | cons x xs ih =>
    intro b
    by_cases hq : q x
    · simp [List.filter_cons, hq, ih]
    · simp [List.filter_cons, hq, ih]

theorem unionPass_eq_runUnions (pp : List ProjPoint) (r : ℚ) :
    unionPass pp r =
      UnionFind.runUnions pp.length (closePairs pp r) (UnionFind.initParent pp.length) := by
  unfold unionPass closePairs UnionFind.runUnions
  exact foldl_filter_step _ _ _ _

theorem mem_allPairs {n : ℕ} {e : ℕ × ℕ} :
    e ∈ allPairs n ↔ e.1 < e.2 ∧ e.2 < n := by
  cases e with
  | mk a b =>
    simp only [allPairs, List.mem_flatMap, List.mem_map, List.mem_filter, List.mem_range,
      decide_eq_true_eq]
    constructor
    · rintro ⟨i, hi, j, ⟨hj, hij⟩, hpair⟩
      obtain ⟨rfl, rfl⟩ : i = a ∧ j = b := by
        constructor
        · exact congrArg Prod.fst hpair
        · exact congrArg Prod.snd hpair
      exact ⟨hij, hj⟩
    · rintro ⟨hab, hb⟩
      exact ⟨a, by omega, b, ⟨hb, hab⟩, rfl⟩

theorem close_symm (pp : List ProjPoint) (r : ℚ) (i j : ℕ) :
    close pp r i j = close pp r j i := by
  unfold close
  cases hx1 : (pp.getD i default).screenX <;> cases hx2 : (pp.getD j default).screenX <;>
    cases hy1 : (pp.getD i default).screenY <;> cases hy2 : (pp.getD j default).screenY <;>
      simp [JsNum.sub, JsNum.mul, JsNum.add, JsNum.sqrtLe]
  ring_nf

theorem mem_closePairs {pp : List ProjPoint} {r : ℚ} {e : ℕ × ℕ} :
    e ∈ closePairs pp r ↔ e.1 < e.2 ∧ e.2 < pp.length ∧ close pp r e.1 e.2 = true := by
  simp only [closePairs, List.mem_filter, mem_allPairs]
  tauto

theorem closePairs_bounded (pp : List ProjPoint) (r : ℚ) :
    ∀ e ∈ closePairs pp r, e.1 < pp.length ∧ e.2 < pp.length := by
  intro e he
  rw [mem_closePairs] at he
  omega

theorem unionPass_WF (pp : List ProjPoint) (r : ℚ) :
    UnionFind.WF pp.length (unionPass pp r) := by
  rw [unionPass_eq_runUnions]
  exact UnionFind.runUnions_WF (UnionFind.WF_initParent _) (closePairs_bounded pp r)

theorem linked_closePairs_iff {pp : List ProjPoint} {r : ℚ} {a b : ℕ} :
    UnionFind.linked (closePairs pp r) a b ↔
      a ≠ b ∧ a < pp.length ∧ b < pp.length ∧ close pp r a b = true := by
  unfold UnionFind.linked
  rw [mem_closePairs, mem_closePairs]
  simp only []
  constructor
  · rintro (⟨h1, h2, h3⟩ | ⟨h1, h2, h3⟩)
    · exact ⟨by omega, by omega, h2, h3⟩
    · exact ⟨by omega, h2, by omega, (close_symm pp r a b).trans h3⟩
  · rintro ⟨hne, ha, hb, hc⟩
    rcases Nat.lt_or_ge a b with h | h
    · exact Or.inl ⟨h, hb, hc⟩
    · exact Or.inr ⟨by omega, ha, (close_symm pp r b a).trans hc⟩

/-- The proximity-chain relation of the spec: consecutive points, both in
range, whose projected distance is within the radius. -/
def chainRel (pp : List ProjPoint) (r : ℚ) (a b : ℕ) : Prop :=
  a < pp.length ∧ b < pp.length ∧ close pp r a b = true

theorem joined_iff_chain {pp : List ProjPoint} {r : ℚ} {a b : ℕ} :
    UnionFind.joined (closePairs pp r) a b ↔ Relation.ReflTransGen (chainRel pp r) a b := by
  constructor
  · intro h
    refine Relation.ReflTransGen.mono ?_ h
    intro x y hxy
    rw [linked_closePairs_iff] at hxy
    exact ⟨hxy.2.1, hxy.2.2.1, hxy.2.2.2⟩
  · intro h
    induction h with
    | refl => exact UnionFind.joined_refl _ a
    | tail hxm hstep ih =>
      rename_i m k
      by_cases hmk : m = k
      · rwa [hmk] at ih
      · refine UnionFind.joined_trans ih (Relation.ReflTransGen.single ?_)
        rw [linked_closePairs_iff]
        exact ⟨hmk, hstep.1, hstep.2.1, hstep.2.2⟩

/-- The union pass computes the connected components of the proximity
graph: equal roots exactly when a proximity chain connects the indices. -/
theorem unionPass_root_iff {pp : List ProjPoint} {r : ℚ} {a b : ℕ}
    (ha : a < pp.length) (hb : b < pp.length) :
    UnionFind.root pp.length (unionPass pp r) a =
      UnionFind.root pp.length (unionPass pp r) b ↔
      Relation.ReflTransGen (chainRel pp r) a b := by
  rw [unionPass_eq_runUnions]
  rw [UnionFind.runUnions_root_iff (closePairs pp r) (closePairs_bounded pp r) a ha b hb]
  exact joined_iff_chain

end Engine

namespace Engine

/-! ### Projection facts -/

theorem length_projectPoints (proj : Projector) (pts : List GeoPoint) :
    (projectPoints proj pts).length = pts.length := by
  simp [projectPoints]

theorem projectPoints_getD (proj : Projector) (pts : List GeoPoint) {i : ℕ}
    (hi : i < pts.length) :
    (projectPoints proj pts).getD i default =
      { point := pts.getD i default, index := i,
        screenX := (proj (pts.getD i default).longitude (pts.getD i default).latitude).1,
        screenY := (proj (pts.getD i default).longitude (pts.getD i default).latitude).2 } := by
  have hlen : i < (projectPoints proj pts).length := by
    rw [length_projectPoints]; exact hi
  rw [List.getD_eq_getElem _ _ hlen, List.getD_eq_getElem _ _ hi]
  simp [projectPoints]

theorem projectPoints_index (proj : Projector) (pts : List GeoPoint) {i : ℕ}
    (hi : i < pts.length) :
    ((projectPoints proj pts).getD i default).index = i := by
  rw [projectPoints_getD proj pts hi]

/-! ### The grouping stage -/

theorem assignRoots_go {n : ℕ} (p : ℕ → ℕ) :
    ∀ (l : List ℕ), (∀ i ∈ l, i < n) → ∀ (q : ℕ → ℕ) (acc : List ℕ),
      UnionFind.WF n q →
      (∀ j, j < n → UnionFind.root n q j = UnionFind.root n p j) →
      (l.foldl (fun st i =>
        let fr := UnionFind.find n st.1 i
        (fr.1, st.2 ++ [fr.2])) (q, acc)).2 = acc ++ l.map (UnionFind.root n p) := by
  intro l
  induction l with
  | nil => intro _ q acc _ _; simp
  | cons i l ih =>
    intro hl q acc hq hroots
    have hi : i < n := hl i (List.mem_cons_self i l)
    obtain ⟨hval, hwf, hpres⟩ := UnionFind.find_spec hq hi
    rw [List.foldl_cons]
    have hstep := ih (fun x hx => hl x (List.mem_cons_of_mem i hx))
      (UnionFind.find n q i).1 (acc ++ [(UnionFind.find n q i).2]) hwf
      (fun j hj => (hpres j hj).trans (hroots j hj))
    rw [hstep]
    rw [hval, hroots i hi]
    simp

theorem assignRoots_spec {n : ℕ} {p : ℕ → ℕ} (h : UnionFind.WF n p) :
    (assignRoots n p).2 = (List.range n).map (UnionFind.root n p) := by
  unfold assignRoots
  have := assignRoots_go p (List.range n) (by simp) p [] h (fun _ _ => rfl)
  simpa using this

theorem rootsList_getD {n : ℕ} {p : ℕ → ℕ} (h : UnionFind.WF n p) {i : ℕ}
    (hi : i < n) : ((assignRoots n p).2).getD i 0 = UnionFind.root n p i := by
  rw [assignRoots_spec h]
  have hlen : i < ((List.range n).map (UnionFind.root n p)).length := by simp [hi]
  rw [List.getD_eq_getElem _ _ hlen]
  simp

theorem rootsList_mem {n : ℕ} {p : ℕ → ℕ} (h : UnionFind.WF n p) {x : ℕ} :
    x ∈ (assignRoots n p).2 ↔ ∃ i, i < n ∧ UnionFind.root n p i = x := by
  rw [assignRoots_spec h]
  simp [List.mem_map]

/-- Each group of the groups object is exactly the set of live indices
with one fixed (occupied) root value. -/
theorem mem_groupsIdx_spec {n : ℕ} {p : ℕ → ℕ} (h : UnionFind.WF n p) {g : List ℕ}
    (hg : g ∈ groupsIdx n p) :
    ∃ rk, (∃ i, i < n ∧ UnionFind.root n p i = rk) ∧
      ∀ i, (i ∈ g ↔ i < n ∧ UnionFind.root n p i = rk) := by
  unfold groupsIdx at hg
  obtain ⟨rk, hrk, rfl⟩ := List.mem_map.mp hg
  rw [List.mem_filter, List.mem_range] at hrk
  obtain ⟨hrklt, hrkmem⟩ := hrk
  have hrkroots : rk ∈ (assignRoots n p).2 := by
    have := List.elem_iff.mp hrkmem
    exact this
  refine ⟨rk, (rootsList_mem h).mp hrkroots, ?_⟩
  intro i
  rw [List.mem_filter, List.mem_range]
  constructor
  · rintro ⟨hin, hroot⟩
    rw [rootsList_getD h hin] at hroot
    exact ⟨hin, by simpa using hroot⟩
  · rintro ⟨hin, hroot⟩
    refine ⟨hin, ?_⟩
    rw [rootsList_getD h hin]
    simpa using hroot

theorem groupsIdx_cover {n : ℕ} {p : ℕ → ℕ} (h : UnionFind.WF n p) {a : ℕ}
    (ha : a < n) : ∃ g ∈ groupsIdx n p, a ∈ g := by
  refine ⟨(List.range n).filter
    (fun i => (assignRoots n p).2.getD i 0 = UnionFind.root n p a), ?_, ?_⟩
  · unfold groupsIdx
    refine List.mem_map.mpr ⟨UnionFind.root n p a, ?_, rfl⟩
    rw [List.mem_filter, List.mem_range]
    refine ⟨UnionFind.root_lt h ha, ?_⟩
    exact List.elem_iff.mpr ((rootsList_mem h).mpr ⟨a, ha, rfl⟩)
  · rw [List.mem_filter, List.mem_range]
    refine ⟨ha, ?_⟩
    rw [rootsList_getD h ha]
    simp

theorem groupsIdx_nodup {n : ℕ} {p : ℕ → ℕ} {g : List ℕ}
    (hg : g ∈ groupsIdx n p) : g.Nodup := by
  unfold groupsIdx at hg
  obtain ⟨rk, _, rfl⟩ := List.mem_map.mp hg
  exact (List.nodup_range n).filter _

theorem groupsIdx_same_iff {n : ℕ} {p : ℕ → ℕ} (h : UnionFind.WF n p) {a b : ℕ}
    (ha : a < n) (hb : b < n) :
    (∃ g ∈ groupsIdx n p, a ∈ g ∧ b ∈ g) ↔
      UnionFind.root n p a = UnionFind.root n p b := by
  constructor
  · rintro ⟨g, hg, hag, hbg⟩
    obtain ⟨rk, _, hmem⟩ := mem_groupsIdx_spec h hg
    rw [(hmem a).mp hag |>.2, (hmem b).mp hbg |>.2]
  · intro hroot
    obtain ⟨g, hg, hag⟩ := groupsIdx_cover h ha
    obtain ⟨rk, _, hmem⟩ := mem_groupsIdx_spec h hg
    refine ⟨g, hg, hag, ?_⟩
    rw [hmem b]
    exact ⟨hb, hroot ▸ ((hmem a).mp hag).2⟩

end Engine

namespace Engine

/-! ### The groups object is a partition -/

theorem perm_filter_or_disjoint :
    ∀ (l : List ℕ) (P Q : ℕ → Bool), (∀ x ∈ l, ¬(P x = true ∧ Q x = true)) →
      (l.filter P ++ l.filter Q).Perm (l.filter (fun x => P x || Q x)) := by
  intro l
  induction l with
  | nil => intro P Q _; simp
  | cons x xs ih =>
    intro P Q hdis
    have hx := hdis x (List.mem_cons_self x xs)
    have htl := fun y hy => hdis y (List.mem_cons_of_mem x hy)
    by_cases hP : P x = true
    · have hQ : Q x = false := by
        cases hq : Q x
        · rfl
        · exact absurd ⟨hP, hq⟩ hx
      simp only [List.filter_cons, hP, hQ, if_pos, Bool.false_eq_true, if_neg,
        Bool.true_or, List.cons_append]
      exact (ih P Q htl).cons x
    · have hP' : P x = false := by
        cases hp : P x
        · rfl
        · exact absurd hp hP
      by_cases hQ : Q x = true
      · simp only [List.filter_cons, hP', hQ, Bool.false_eq_true, if_neg, if_pos,
          Bool.false_or]
        exact List.perm_middle.trans ((ih P Q htl).cons x)
      · have hQ' : Q x = false := by
          cases hq : Q x
          · rfl
          · exact absurd hq hQ
        simp only [List.filter_cons, hP', hQ', Bool.false_eq_true, if_neg,
          Bool.false_or]
        exact ih P Q htl

theorem join_filters (f : ℕ → ℕ) :
    ∀ (ks : List ℕ), ks.Nodup → ∀ (l : List ℕ),
      ((ks.map (fun rk => l.filter (fun i => f i = rk))).flatten).Perm
        (l.filter (fun i => ks.contains (f i))) := by
  intro ks
  induction ks with
  | nil =>
    intro _ l
    simp
  | cons rk ks ih =>
    intro hnodup l
    rw [List.nodup_cons] at hnodup
    rw [List.map_cons, List.flatten_cons]
    have step1 : ((ks.map (fun rk => l.filter (fun i => f i = rk))).flatten).Perm
        (l.filter (fun i => ks.contains (f i))) := ih hnodup.2 l
    have step2 : (l.filter (fun i => decide (f i = rk)) ++
        (ks.map (fun rk => l.filter (fun i => f i = rk))).flatten).Perm
        (l.filter (fun i => decide (f i = rk)) ++ l.filter (fun i => ks.contains (f i))) :=
      step1.append_left _
    refine step2.trans ?_
    have hdis : ∀ x ∈ l, ¬(decide (f x = rk) = true ∧ ks.contains (f x) = true) := by
      rintro x _ ⟨h1, h2⟩
      rw [decide_eq_true_eq] at h1
      rw [h1] at h2
      exact hnodup.1 (List.elem_iff.mp h2)
    refine (perm_filter_or_disjoint l _ _ hdis).trans ?_
    have hcongr : ∀ x ∈ l,
        (decide (f x = rk) || ks.contains (f x)) = (rk :: ks).contains (f x) := by
      intro x _
      by_cases hfx : f x = rk
      · subst hfx
        simp [List.contains_cons]
      · have h1 : decide (f x = rk) = false := by simp [hfx]
        have h2 : (f x == rk) = false := by
          rw [beq_eq_false_iff_ne]
          exact hfx
        simp [List.contains_cons, h1, h2]
    rw [List.filter_congr hcongr]

theorem groupsIdx_join_perm {n : ℕ} {p : ℕ → ℕ} (h : UnionFind.WF n p) :
    ((groupsIdx n p).flatten).Perm (List.range n) := by
  unfold groupsIdx
  have hkeys : ((List.range n).filter
      (fun r => (assignRoots n p).2.contains r)).Nodup :=
    (List.nodup_range n).filter _
  have hjoin := join_filters (fun i => (assignRoots n p).2.getD i 0)
    ((List.range n).filter (fun r => (assignRoots n p).2.contains r)) hkeys
    (List.range n)
  refine hjoin.trans ?_
  have hall : ∀ i ∈ List.range n,
      ((List.range n).filter
        (fun r => (assignRoots n p).2.contains r)).contains
          ((assignRoots n p).2.getD i 0) = true := by
    intro i hi
    rw [List.mem_range] at hi
    rw [rootsList_getD h hi]
    apply List.elem_iff.mpr
    rw [List.mem_filter, List.mem_range]
    refine ⟨UnionFind.root_lt h hi, ?_⟩
    exact List.elem_iff.mpr ((rootsList_mem h).mpr ⟨i, hi, rfl⟩)
  rw [List.filter_eq_self.mpr hall]

/-! ### Point-level groups -/

/-- Two indices land in the same output group. -/
def sameGroup (pp : List ProjPoint) (r : ℚ) (a b : ℕ) : Prop :=
  ∃ g ∈ groups pp r, pp.getD a default ∈ g ∧ pp.getD b default ∈ g

instance (pp : List ProjPoint) (r : ℚ) (a b : ℕ) : Decidable (sameGroup pp r a b) := by
  unfold sameGroup
  infer_instance

theorem groups_nonempty {pp : List ProjPoint} {r : ℚ} :
    ∀ g ∈ groups pp r, 1 ≤ g.length := by
  intro g hg
  unfold groups at hg
  obtain ⟨gI, hgI, rfl⟩ := List.mem_map.mp hg
  obtain ⟨rk, ⟨i, hi, hroot⟩, hmem⟩ :=
    mem_groupsIdx_spec (unionPass_WF pp r) hgI
  have : i ∈ gI := (hmem i).mpr ⟨hi, hroot⟩
  have hpos : 0 < gI.length := List.length_pos.mpr (fun he => by
    rw [he] at this
    exact (List.not_mem_nil i) this)
  simpa using hpos

theorem sameGroup_iff_root {pts : List GeoPoint} {proj : Projector} {r : ℚ} {a b : ℕ}
    (ha : a < pts.length) (hb : b < pts.length) :
    sameGroup (projectPoints proj pts) r a b ↔
      UnionFind.root (projectPoints proj pts).length
          (unionPass (projectPoints proj pts) r) a =
        UnionFind.root (projectPoints proj pts).length
          (unionPass (projectPoints proj pts) r) b := by
  set pp := projectPoints proj pts with hpp
  have hlen : pp.length = pts.length := length_projectPoints proj pts
  have hWF := unionPass_WF pp r
  have hidx : ∀ i, i < pp.length → (pp.getD i default).index = i := by
    intro i hi
    rw [hpp]
    exact projectPoints_index proj pts (hlen ▸ hi)
  constructor
  · rintro ⟨g, hg, hag, hbg⟩
    unfold groups at hg
    obtain ⟨gI, hgI, rfl⟩ := List.mem_map.mp hg
    obtain ⟨rk, _, hmem⟩ := mem_groupsIdx_spec hWF hgI
    obtain ⟨i, higI, hieq⟩ := List.mem_map.mp hag
    obtain ⟨j, hjgI, hjeq⟩ := List.mem_map.mp hbg
    have hilt : i < pp.length := ((hmem i).mp higI).1
    have hjlt : j < pp.length := ((hmem j).mp hjgI).1
    have hia : i = a := by
      have h1 := hidx i hilt
      have h2 := hidx a (hlen ▸ ha)
      rw [← h1, ← h2, hieq]
    have hjb : j = b := by
      have h1 := hidx j hjlt
      have h2 := hidx b (hlen ▸ hb)
      rw [← h1, ← h2, hjeq]
    subst hia
    subst hjb
    exact (groupsIdx_same_iff hWF hilt hjlt).mp ⟨gI, hgI, higI, hjgI⟩
  · intro hroot
    obtain ⟨gI, hgI, hagI, hbgI⟩ :=
      (groupsIdx_same_iff hWF (hlen ▸ ha) (hlen ▸ hb)).mpr hroot
    refine ⟨gI.map (fun i => pp.getD i default), ?_, ?_, ?_⟩
    · unfold groups
      exact List.mem_map.mpr ⟨gI, hgI, rfl⟩
    · exact List.mem_map.mpr ⟨a, hagI, rfl⟩
    · exact List.mem_map.mpr ⟨b, hbgI, rfl⟩

/-- The partition property at the index level: concatenating the member
indices of all output groups gives each input index exactly once. -/
theorem groups_index_join_perm (pts : List GeoPoint) (proj : Projector) (r : ℚ) :
    (((groups (projectPoints proj pts) r).map (fun g => g.map (fun p => p.index))).flatten).Perm
      (List.range pts.length) := by
  set pp := projectPoints proj pts with hpp
  have hlen : pp.length = pts.length := length_projectPoints proj pts
  have hWF := unionPass_WF pp r
  have hmapeq : (groups pp r).map (fun g => g.map (fun p => p.index)) =
      groupsIdx pp.length (unionPass pp r) := by
    unfold groups
    rw [List.map_map]
    have : ∀ gI ∈ groupsIdx pp.length (unionPass pp r),
        ((fun g => g.map (fun p => p.index)) ∘ fun g => g.map fun i => pp.getD i default) gI
          = gI := by
      intro gI hgI
      obtain ⟨rk, _, hmem⟩ := mem_groupsIdx_spec hWF hgI
      show (gI.map (fun i => pp.getD i default)).map (fun p => p.index) = gI
      rw [List.map_map]
      have hcongr : ∀ i ∈ gI,
          ((fun p => p.index) ∘ fun i => pp.getD i default) i = id i := by
        intro i hi
        have hilt : i < pp.length := ((hmem i).mp hi).1
        show (pp.getD i default).index = i
        rw [hpp]
        exact projectPoints_index proj pts (hlen ▸ hilt)
      rw [List.map_congr_left hcongr, List.map_id]
    exact (List.map_congr_left this).trans (List.map_id' _)
  rw [hmapeq, ← hlen]
  exact groupsIdx_join_perm hWF

end Engine

namespace Engine

/-! ### Status aggregation -/

/-- Reading `statusCounts[s] || 0` off the association list. -/
def cnt : List (String × ℕ) → String → ℕ
  | [], _ => 0
  | (t, c) :: rest, s => if t = s then c else cnt rest s

/-- The total of all recorded counts. -/
def sumCounts (m : List (String × ℕ)) : ℕ := (m.map Prod.snd).sum

/-- The largest recorded count. -/
def maxCount (m : List (String × ℕ)) : ℕ := (m.map Prod.snd).foldr max 0

theorem bump_cnt_self (m : List (String × ℕ)) (s : String) :
    cnt (bump m s) s = cnt m s + 1 := by
  induction m with
  | nil => simp [bump, cnt]
  | cons kv rest ih =>
    obtain ⟨t, c⟩ := kv
    by_cases hts : t = s
    · subst hts
      simp [bump, cnt]
    · simp [bump, cnt, hts, ih]

theorem bump_cnt_other {m : List (String × ℕ)} {s t : String} (h : t ≠ s) :
    cnt (bump m s) t = cnt m t := by
  have hst : ¬ s = t := fun he => h he.symm
  induction m with
  | nil => simp [bump, cnt, hst]
  | cons kv rest ih =>
    obtain ⟨u, c⟩ := kv
    by_cases hus : u = s
    · subst hus
      simp [bump, cnt, hst]
    · by_cases hut : u = t
      · subst hut
        simp [bump, cnt, hus]
      · simp [bump, cnt, hus, hut, ih]

theorem bump_sumCounts (m : List (String × ℕ)) (s : String) :
    sumCounts (bump m s) = sumCounts m + 1 := by
  induction m with
  | nil => simp [bump, sumCounts]
  | cons kv rest ih =>
    obtain ⟨t, c⟩ := kv
    by_cases hts : t = s
    · subst hts
      simp [bump, sumCounts]
      omega
    · simp [bump, sumCounts, hts] at ih ⊢
      omega

theorem bump_pos {m : List (String × ℕ)} (h : ∀ kv ∈ m, 1 ≤ kv.2) (s : String) :
    ∀ kv ∈ bump m s, 1 ≤ kv.2 := by
  induction m with
  | nil =>
    intro kv hkv
    simp [bump] at hkv
    subst hkv
    simp
  | cons kv0 rest ih =>
    obtain ⟨t, c⟩ := kv0
    intro kv hkv
    by_cases hts : t = s
    · subst hts
      simp [bump] at hkv
      rcases hkv with hkv | hkv
      · subst hkv
        simp
      · exact h kv (List.mem_cons_of_mem _ hkv)
    · simp [bump, hts] at hkv
      rcases hkv with hkv | hkv
      · subst hkv
        exact h (t, c) (List.mem_cons_self _ _)
      · exact ih (fun kv' h' => h kv' (List.mem_cons_of_mem _ h')) kv hkv

theorem statusCounts_cnt_go (s : String) :
    ∀ (g : List ProjPoint) (acc : List (String × ℕ)),
      cnt (g.foldl (fun m p => bump m p.point.status) acc) s =
        cnt acc s + g.countP (fun p => p.point.status == s) := by
  intro g
  induction g with
  | nil => intro acc; simp
  | cons p g ih =>
    intro acc
    rw [List.foldl_cons, ih]
    by_cases hs : p.point.status = s
    · rw [List.countP_cons_of_pos _ _ (by simpa using hs), hs, bump_cnt_self]
      omega
    · rw [List.countP_cons_of_neg _ _ (by simpa using hs), bump_cnt_other (fun he => hs he.symm)]

/-- `statusCounts` records, for every status string, exactly its number of
occurrences in the group — unrecognized strings included, verbatim. -/
theorem statusCounts_cnt (g : List ProjPoint) (s : String) :
    cnt (statusCounts g) s = g.countP (fun p => p.point.status == s) := by
  have := statusCounts_cnt_go s g []
  simpa [statusCounts, cnt] using this

theorem statusCounts_sum_go :
    ∀ (g : List ProjPoint) (acc : List (String × ℕ)),
      sumCounts (g.foldl (fun m p => bump m p.point.status) acc) =
        sumCounts acc + g.length := by
  intro g
  induction g with
  | nil => intro acc; simp
  | cons p g ih =>
    intro acc
    rw [List.foldl_cons, ih, bump_sumCounts]
    simp
    omega

/-- The counts of a group's `statusCounts` sum to the group size: each
member is tallied exactly once. -/
theorem statusCounts_sum (g : List ProjPoint) :
    sumCounts (statusCounts g) = g.length := by
  have := statusCounts_sum_go g []
  simpa [statusCounts, sumCounts] using this

theorem statusCounts_pos_go :
    ∀ (g : List ProjPoint) (acc : List (String × ℕ)), (∀ kv ∈ acc, 1 ≤ kv.2) →
      ∀ kv ∈ g.foldl (fun m p => bump m p.point.status) acc, 1 ≤ kv.2 := by
  intro g
  induction g with
  | nil => intro acc hacc; exact hacc
  | cons p g ih =>
    intro acc hacc
    rw [List.foldl_cons]
    exact ih _ (bump_pos hacc _)

theorem statusCounts_pos (g : List ProjPoint) :
    ∀ kv ∈ statusCounts g, 1 ≤ kv.2 :=
  statusCounts_pos_go g [] (by simp)

theorem bump_keys_mem (m : List (String × ℕ)) (s t : String) :
    t ∈ (bump m s).map Prod.fst ↔ t ∈ m.map Prod.fst ∨ t = s := by
  induction m with
  | nil => simp [bump]
  | cons kv rest ih =>
    obtain ⟨u, c⟩ := kv
    by_cases hus : u = s
    · subst hus
      simp [bump]
      tauto
    · simp [bump, hus, ih]
      tauto

theorem statusCounts_keys_go (t : String) :
    ∀ (g : List ProjPoint) (acc : List (String × ℕ)),
      (t ∈ (g.foldl (fun m p => bump m p.point.status) acc).map Prod.fst ↔
        t ∈ acc.map Prod.fst ∨ ∃ p ∈ g, p.point.status = t) := by
  intro g
  induction g with
  | nil => intro acc; simp
  | cons p g ih =>
    intro acc
    rw [List.foldl_cons, ih, bump_keys_mem]
    constructor
    · rintro ((h | h) | h)
      · exact Or.inl h
      · exact Or.inr ⟨p, List.mem_cons_self _ _, h.symm⟩
      · obtain ⟨q, hq, hqt⟩ := h
        exact Or.inr ⟨q, List.mem_cons_of_mem _ hq, hqt⟩
    · rintro (h | ⟨q, hq, hqt⟩)
      · exact Or.inl (Or.inl h)
      · rcases List.mem_cons.mp hq with rfl | hq'
        · exact Or.inl (Or.inr hqt.symm)
        · exact Or.inr ⟨q, hq', hqt⟩

/-- The keys of `statusCounts` are exactly the status strings occurring in
the group. -/
theorem statusCounts_keys (g : List ProjPoint) (t : String) :
    t ∈ (statusCounts g).map Prod.fst ↔ ∃ p ∈ g, p.point.status = t := by
  have := statusCounts_keys_go t g []
  simpa [statusCounts] using this

end Engine

namespace Engine

/-! ### The dominant-status computation -/

/-- The statuses of a list in order of first occurrence: this is the key
insertion order of the `statusCounts` object. -/
def firstOccs : List String → List String
  | [] => []
  | s :: rest => s :: firstOccs (rest.filter (fun t => t ≠ s))
termination_by l => l.length
decreasing_by
  simp only [List.length_cons]
  exact Nat.lt_succ_of_le (List.length_filter_le _ _)

/-- `statusCounts` at the level of the plain status-string list. -/
def scList (l : List String) : List (String × ℕ) := l.foldl bump []

theorem statusCounts_eq_scList (g : List ProjPoint) :
    statusCounts g = scList (g.map (fun p => p.point.status)) := by
  unfold statusCounts scList
  rw [List.foldl_map]

theorem foldl_bump_head (s : String) :
    ∀ (rest : List String) (m : List (String × ℕ)) (c : ℕ),
      rest.foldl bump ((s, c) :: m) =
        (s, c + rest.count s) :: (rest.filter (fun t => t ≠ s)).foldl bump m := by
  intro rest
  induction rest with
  | nil => intro m c; simp
  | cons t rest ih =>
    intro m c
    by_cases hst : s = t
    · subst hst
      rw [List.foldl_cons]
      have hb : bump ((s, c) :: m) s = (s, c + 1) :: m := by
        simp [bump]
      rw [hb, ih]
      have hcount : (s :: rest).count s = rest.count s + 1 := List.count_cons_self s rest
      have hfilter : (s :: rest).filter (fun t => t ≠ s) = rest.filter (fun t => t ≠ s) := by
        simp [List.filter_cons]
      rw [hcount, hfilter]
      have harith : c + 1 + rest.count s = c + (rest.count s + 1) := by omega
      rw [harith]
    · rw [List.foldl_cons]
      have hts : ¬ t = s := fun he => hst he.symm
      have hb : bump ((s, c) :: m) t = (s, c) :: bump m t := by
        simp [bump, hst]
      rw [hb, ih]
      have hcount : (t :: rest).count s = rest.count s := by
        rw [List.count_cons]
        simp [hst, hts]
      have hfilter : (t :: rest).filter (fun u => u ≠ s) =
          t :: rest.filter (fun u => u ≠ s) := by
        simp [List.filter_cons, hts]
      rw [hcount, hfilter, List.foldl_cons]

theorem count_filter_ne {l : List String} {s t : String} (h : t ≠ s) :
    (l.filter (fun u => u ≠ s)).count t = l.count t := by
  induction l with
  | nil => rfl
  | cons u l ih =>
    by_cases hus : u = s
    · subst hus
      have hut : ¬ u = t := fun he => h he.symm
      have h1 : (u :: l).filter (fun v => v ≠ u) = l.filter (fun v => v ≠ u) := by
        simp [List.filter_cons]
      rw [h1, ih]
      rw [List.count_cons]
      simp [h, hut]
    · have h1 : (u :: l).filter (fun v => v ≠ s) = u :: l.filter (fun v => v ≠ s) := by
        simp [List.filter_cons, hus]
      rw [h1, List.count_cons, List.count_cons, ih]

theorem mem_firstOccs {t : String} : ∀ {l : List String}, t ∈ firstOccs l ↔ t ∈ l := by
  intro l
  induction l using firstOccs.induct with
  | case1 => simp [firstOccs]
  | case2 s rest ih =>
    rw [firstOccs]
    by_cases hts : t = s
    · subst hts
      simp
    · simp only [List.mem_cons, hts, false_or, ih, List.mem_filter]
      constructor
      · rintro ⟨h1, _⟩; exact h1
      · intro h1
        exact ⟨h1, by simpa using hts⟩

/-- The canonical form of `statusCounts`: keys in first-occurrence order,
each carrying its occurrence count. -/
theorem scList_eq (l : List String) :
    scList l = (firstOccs l).map (fun s => (s, l.count s)) := by
  induction l using firstOccs.induct with
  | case1 => simp [scList, firstOccs]
  | case2 s rest ih =>
    rw [firstOccs, List.map_cons]
    unfold scList
    rw [List.foldl_cons]
    have hb : bump [] s = [(s, 1)] := rfl
    rw [hb]
    have := foldl_bump_head s rest [] 1
    rw [this]
    unfold scList at ih
    rw [ih]
    have hhead : 1 + rest.count s = (s :: rest).count s := by
      rw [List.count_cons_self]
      omega
    rw [hhead]
    congr 1
    apply List.map_congr_left
    intro t ht
    have htrest : t ∈ rest.filter (fun u => u ≠ s) := mem_firstOccs.mp ht
    rw [List.mem_filter] at htrest
    have hts : t ≠ s := by simpa using htrest.2
    rw [count_filter_ne hts]
    have hst' : ¬ s = t := fun he => hts he.symm
    have : (s :: rest).count t = rest.count t := by
      rw [List.count_cons]
      simp [hts, hst']
    rw [this]

theorem find?_filter_ne {P : String → Bool} {s : String} (hs : P s = false) :
    ∀ (l : List String), (l.filter (fun u => u ≠ s)).find? P = l.find? P := by
  intro l
  induction l with
  | nil => rfl
  | cons t l ih =>
    by_cases hts : t = s
    · subst hts
      have h1 : (t :: l).filter (fun v => v ≠ t) = l.filter (fun v => v ≠ t) := by
        simp [List.filter_cons]
      rw [h1, ih, List.find?_cons, hs]
    · have h1 : (t :: l).filter (fun v => v ≠ s) = t :: l.filter (fun v => v ≠ s) := by
        simp [List.filter_cons, hts]
      rw [h1, List.find?_cons, List.find?_cons]
      cases hPt : P t
      · exact ih
      · rfl

theorem find?_firstOccs (P : String → Bool) :
    ∀ (l : List String), (firstOccs l).find? P = l.find? P := by
  intro l
  induction l using firstOccs.induct with
  | case1 => rw [firstOccs]
  | case2 s rest ih =>
    rw [firstOccs, List.find?_cons, List.find?_cons]
    cases hPs : P s
    · rw [ih, find?_filter_ne hPs]
    · rfl

/-- Shape of the running-maximum fold: either no element beats the seed, or
the fold returns the first element that attains the overall maximum. -/
theorem foldl_max_spec :
    ∀ (l : List (String × ℕ)) (acc : String × ℕ),
      (l.foldl (fun acc kv => if kv.2 > acc.2 then kv else acc) acc = acc ∧
        ∀ kv ∈ l, kv.2 ≤ acc.2) ∨
      (∃ l1 kv l2, l = l1 ++ kv :: l2 ∧
        l.foldl (fun acc kv => if kv.2 > acc.2 then kv else acc) acc = kv ∧
        acc.2 < kv.2 ∧ (∀ kv' ∈ l1, kv'.2 < kv.2) ∧ (∀ kv' ∈ l2, kv'.2 ≤ kv.2)) := by
  intro l
  induction l with
  | nil => intro acc; exact Or.inl ⟨rfl, by simp⟩
  | cons x xs ih =>
    intro acc
    by_cases hx : x.2 > acc.2
    · rw [List.foldl_cons, if_pos hx]
      rcases ih x with ⟨heq, hall⟩ | ⟨l1, kv, l2, hsplit, heq, hlt, h1, h2⟩
      · exact Or.inr ⟨[], x, xs, by simp, heq, hx, by simp, hall⟩
      · refine Or.inr ⟨x :: l1, kv, l2, by rw [hsplit]; rfl, heq, by omega, ?_, h2⟩
        intro kv' hkv'
        rcases List.mem_cons.mp hkv' with rfl | h'
        · omega
        · exact h1 kv' h'
    · rw [List.foldl_cons, if_neg hx]
      rcases ih acc with ⟨heq, hall⟩ | ⟨l1, kv, l2, hsplit, heq, hlt, h1, h2⟩
      · refine Or.inl ⟨heq, ?_⟩
        intro kv' hkv'
        rcases List.mem_cons.mp hkv' with rfl | h'
        · omega
        · exact hall kv' h'
      · refine Or.inr ⟨x :: l1, kv, l2, by rw [hsplit]; rfl, heq, hlt, ?_, h2⟩
        intro kv' hkv'
        rcases List.mem_cons.mp hkv' with rfl | h'
        · omega
        · exact h1 kv' h'

theorem maxCount_le {m : List (String × ℕ)} {c : ℕ} (h : ∀ kv ∈ m, kv.2 ≤ c) :
    maxCount m ≤ c := by
  induction m with
  | nil => simp [maxCount]
  | cons kv rest ih =>
    unfold maxCount at ih ⊢
    rw [List.map_cons, List.foldr_cons]
    have h1 := h kv (List.mem_cons_self _ _)
    have h2 := ih (fun kv' h' => h kv' (List.mem_cons_of_mem _ h'))
    omega

theorem le_maxCount {m : List (String × ℕ)} {kv : String × ℕ} (h : kv ∈ m) :
    kv.2 ≤ maxCount m := by
  induction m with
  | nil => simp at h
  | cons kv0 rest ih =>
    unfold maxCount at ih ⊢
    rw [List.map_cons, List.foldr_cons]
    rcases List.mem_cons.mp h with rfl | h'
    · omega
    · have := ih h'
      omega

theorem find?_of_split {α : Type} {P : α → Bool} {kv : α} (hkv : P kv = true) :
    ∀ (l1 l2 : List α), (∀ x ∈ l1, P x = false) →
      (l1 ++ kv :: l2).find? P = some kv := by
  intro l1
  induction l1 with
  | nil => intro l2 _; rw [List.nil_append, List.find?_cons, hkv]
  | cons x l1 ih =>
    intro l2 hfail
    rw [List.cons_append, List.find?_cons, hfail x (List.mem_cons_self _ _)]
    exact ih l2 (fun y hy => hfail y (List.mem_cons_of_mem _ hy))

end Engine

namespace Engine

theorem count_status_map (g : List ProjPoint) (s : String) :
    (g.map (fun p => p.point.status)).count s = g.countP (fun p => p.point.status == s) := by
  show List.countP (· == s) (g.map (fun p => p.point.status)) = _
  rw [List.countP_map]
  rfl

theorem cnt_eq_count (g : List ProjPoint) (s : String) :
    cnt (statusCounts g) s = (g.map (fun p => p.point.status)).count s := by
  rw [statusCounts_cnt, count_status_map]

/-- When no key is array-index-like, ECMAScript enumeration order is just
insertion order. -/
theorem jsKeysOrder_eq_self {m : List (String × ℕ)}
    (h : ∀ kv ∈ m, jsIndexVal? kv.1 = none) : jsKeysOrder m = m := by
  unfold jsKeysOrder
  have h1 : m.filter (fun kv => (jsIndexVal? kv.1).isSome) = [] := by
    apply List.filter_eq_nil_iff.mpr
    intro kv hkv
    rw [h kv hkv]
    simp
  have h2 : m.filter (fun kv => (jsIndexVal? kv.1).isNone) = m := by
    apply List.filter_eq_self.mpr
    intro kv hkv
    rw [h kv hkv]
    rfl
  rw [h1, h2]
  rfl

/-- Provided no member's status is an array-index-like string (which
`Object.keys` would hoist to the front), the dominant status is the
status of the first member of the group whose status attains the maximum
count (so among tied statuses, the one of the first member encountered
during group iteration wins). -/
theorem dominantStatus_spec (g : List ProjPoint) (hg : g ≠ [])
    (hnum : ∀ p ∈ g, jsIndexVal? p.point.status = none) :
    ∃ p ∈ g,
      g.find? (fun q =>
        cnt (statusCounts g) q.point.status == maxCount (statusCounts g)) = some p ∧
      dominantStatus g = p.point.status := by
  have hkeys : jsKeysOrder (statusCounts g) = statusCounts g := by
    apply jsKeysOrder_eq_self
    intro kv hkv
    have h1 : kv.1 ∈ (statusCounts g).map Prod.fst := List.mem_map.mpr ⟨kv, hkv, rfl⟩
    obtain ⟨p, hp, hps⟩ := (statusCounts_keys g kv.1).mp h1
    rw [← hps]
    exact hnum p hp
  have hsc : statusCounts g =
      (firstOccs (g.map (fun p => p.point.status))).map
        (fun s => (s, (g.map (fun p => p.point.status)).count s)) := by
    rw [statusCounts_eq_scList, scList_eq]
  have hne : statusCounts g ≠ [] := by
    rw [hsc]
    obtain ⟨p, g', rfl⟩ : ∃ p g', g = p :: g' := by
      cases g with
      | nil => exact absurd rfl hg
      | cons p g' => exact ⟨p, g', rfl⟩
    rw [List.map_cons, firstOccs, List.map_cons]
    exact List.cons_ne_nil _ _
  set M := maxCount (statusCounts g) with hM
  rcases foldl_max_spec (statusCounts g) ((g.headD default).point.status, 0) with
    ⟨_, hall⟩ | ⟨l1, kv, l2, hsplit, heq, _, h1, h2⟩
  · obtain ⟨kv0, hkv0⟩ := List.exists_mem_of_ne_nil _ hne
    have := statusCounts_pos g kv0 hkv0
    have := hall kv0 hkv0
    omega
  · have hdom : dominantStatus g = kv.1 := by
      unfold dominantStatus
      rw [hkeys, heq]
    have hkvmem : kv ∈ statusCounts g := by
      rw [hsplit]
      exact List.mem_append_right _ (List.mem_cons_self _ _)
    have hkvM : kv.2 = M := by
      rw [hM]
      apply le_antisymm (le_maxCount hkvmem)
      apply maxCount_le
      intro kv' hkv'
      rw [hsplit] at hkv'
      rcases List.mem_append.mp hkv' with h' | h'
      · exact le_of_lt (h1 kv' h')
      · rcases List.mem_cons.mp h' with rfl | h''
        · exact le_refl _
        · exact h2 kv' h''
    have hfind_sc : (statusCounts g).find? (fun kv' => kv'.2 == kv.2) = some kv := by
      rw [hsplit]
      apply find?_of_split
      · exact beq_self_eq_true _
      · intro x hx
        have hxlt := h1 x hx
        rw [beq_eq_false_iff_ne]
        omega
    rw [hkvM, hsc, List.find?_map] at hfind_sc
    obtain ⟨sstar, hfind_fo, hF⟩ := Option.map_eq_some'.mp hfind_sc
    rw [find?_firstOccs] at hfind_fo
    rw [List.find?_map] at hfind_fo
    obtain ⟨p, hfind_g, hps⟩ := Option.map_eq_some'.mp hfind_fo
    have hpred : (fun q : ProjPoint =>
        cnt (statusCounts g) q.point.status == M) =
        (fun q : ProjPoint =>
          (g.map (fun p => p.point.status)).count q.point.status == M) := by
      funext q
      rw [cnt_eq_count]
    refine ⟨p, List.mem_of_find?_eq_some hfind_g, ?_, ?_⟩
    · rw [hpred]
      exact hfind_g
    · rw [hdom, ← hF, hps]

end Engine

/-!
## The duplicate engine of `src/unnamed/part_001`

Lines 128–213 of `src/unnamed/part_001` contain a second copy of the
clustering pass; its `UnionFind` class (lines 59–84) is character-identical
to the one in `MapChart.tsx`, so the `UnionFind` embedding above serves
both.  The pass differs from `MapChart.tsx` only in the final cluster
record: it emits `metadata: { status: dominantStatus, count }` instead of
`metadata: { statusCounts, count, dominantStatus }`.  The pipeline is
transcribed separately here so that the equivalence of the two copies is a
statement about two definitions. -/

namespace EngineB

open Engine (GeoPoint ProjPoint Projector)

/-- part_001: `rawData.map((point, index) => ({ ...point, index, screenX: x, screenY: y }))`. -/
def projectPoints (proj : Projector) (pts : List GeoPoint) : List ProjPoint :=
  pts.enum.map (fun ip =>
    { point := ip.2, index := ip.1,
      screenX := (proj ip.2.longitude ip.2.latitude).1,
      screenY := (proj ip.2.longitude ip.2.latitude).2 })

/-- part_001: the pairwise distance test. -/
def close (pp : List ProjPoint) (r : ℚ) (i j : ℕ) : Bool :=
  let dx := JsNum.sub (pp.getD i default).screenX (pp.getD j default).screenX
  let dy := JsNum.sub (pp.getD i default).screenY (pp.getD j default).screenY
  JsNum.sqrtLe (JsNum.add (JsNum.mul dx dx) (JsNum.mul dy dy)) r

/-- part_001: the pairs of the double loop. -/
def allPairs (n : ℕ) : List (ℕ × ℕ) :=
  (List.range n).flatMap (fun i => ((List.range n).filter (fun j => i < j)).map (fun j => (i, j)))

/-- part_001: the union loop. -/
def unionPass (pp : List ProjPoint) (r : ℚ) : ℕ → ℕ :=
  (allPairs pp.length).foldl
    (fun p e => if close pp r e.1 e.2 then UnionFind.union pp.length p e.1 e.2 else p)
    (UnionFind.initParent pp.length)

/-- part_001: the grouping loop. -/
def assignRoots (n : ℕ) (p : ℕ → ℕ) : (ℕ → ℕ) × List ℕ :=
  (List.range n).foldl
    (fun st i =>
      let fr := UnionFind.find n st.1 i
      (fr.1, st.2 ++ [fr.2]))
    (p, [])

/-- part_001: `Object.values(groups)` in ascending integer-key order. -/
def groupsIdx (n : ℕ) (p : ℕ → ℕ) : List (List ℕ) :=
  let roots := (assignRoots n p).2
  ((List.range n).filter (fun r => roots.contains r)).map
    (fun r => (List.range n).filter (fun i => roots.getD i 0 = r))

def groups (pp : List ProjPoint) (r : ℚ) : List (List ProjPoint) :=
  (groupsIdx pp.length (unionPass pp r)).map
    (fun g => g.map (fun i => pp.getD i default))

def bump : List (String × ℕ) → String → List (String × ℕ)
  | [], s => [(s, 1)]
  | (t, c) :: rest, s => if t = s then (t, c + 1) :: rest else (t, c) :: bump rest s

def statusCounts (g : List ProjPoint) : List (String × ℕ) :=
  g.foldl (fun m p => bump m p.point.status) []

def dominantStatus (g : List ProjPoint) : String :=
  ((Engine.jsKeysOrder (statusCounts g)).foldl
    (fun acc kv => if kv.2 > acc.2 then kv else acc)
    ((g.headD default).point.status, 0)).1

def sumLat (g : List ProjPoint) : JsNum :=
  g.foldl (fun s p => JsNum.add s p.point.latitude) (JsNum.num 0)

def sumLon (g : List ProjPoint) : JsNum :=
  g.foldl (fun s p => JsNum.add s p.point.longitude) (JsNum.num 0)

def clusterId (g : List ProjPoint) : String :=
  "cluster-" ++ String.intercalate "-" (g.map (fun p => toString p.index))

/-- part_001's entity: singles are unchanged; a cluster record carries
`{ id, location: centroid, metadata: { status: dominantStatus, count } }`. -/
inductive RenderEntityB where
  | single : ProjPoint → RenderEntityB
  | cluster : String → JsNum → JsNum → String → ℕ → RenderEntityB
deriving DecidableEq, Repr

def entityOf (g : List ProjPoint) : RenderEntityB :=
  if g.length = 1 then RenderEntityB.single (g.headD default)
  else
    RenderEntityB.cluster (clusterId g)
      (JsNum.divNat (sumLat g) g.length)
      (JsNum.divNat (sumLon g) g.length)
      (dominantStatus g)
      g.length

def clusters (pts : List GeoPoint) (proj : Projector) (r : ℚ) : List RenderEntityB :=
  let pp := projectPoints proj pts
  if pp.length = 0 then []
  else (groups pp r).map entityOf

end EngineB

/-- Forgetting the `statusCounts` field maps a MapChart entity onto the
corresponding part_001 entity shape. -/
def Engine.RenderEntity.toB : Engine.RenderEntity → EngineB.RenderEntityB
  | Engine.RenderEntity.single p => EngineB.RenderEntityB.single p
  | Engine.RenderEntity.cluster id la lo _sc c d => EngineB.RenderEntityB.cluster id la lo d c

theorem EngineB.groups_eq (pp : List Engine.ProjPoint) (r : ℚ) :
    EngineB.groups pp r = Engine.groups pp r := rfl

theorem EngineB.bump_eq :
    ∀ (m : List (String × ℕ)) (s : String), EngineB.bump m s = Engine.bump m s := by
  intro m
  induction m with
  | nil => intro s; rfl
  | cons kv rest ih =>
    intro s
    obtain ⟨t, c⟩ := kv
    by_cases h : t = s
    · simp [EngineB.bump, Engine.bump, h]
    · simp [EngineB.bump, Engine.bump, h, ih]

theorem EngineB.statusCounts_eq (g : List Engine.ProjPoint) :
    EngineB.statusCounts g = Engine.statusCounts g := by
  unfold EngineB.statusCounts Engine.statusCounts
  have hfun : (fun (m : List (String × ℕ)) (p : Engine.ProjPoint) =>
      EngineB.bump m p.point.status) =
      (fun m p => Engine.bump m p.point.status) := by
    funext m p
    exact EngineB.bump_eq m p.point.status
  rw [hfun]

theorem EngineB.dominantStatus_eq (g : List Engine.ProjPoint) :
    EngineB.dominantStatus g = Engine.dominantStatus g := by
  unfold EngineB.dominantStatus Engine.dominantStatus
  rw [EngineB.statusCounts_eq]

theorem EngineB.clusterId_eq (g : List Engine.ProjPoint) :
    EngineB.clusterId g = Engine.clusterId g := rfl

theorem EngineB.sumLat_eq (g : List Engine.ProjPoint) :
    EngineB.sumLat g = Engine.sumLat g := rfl

theorem EngineB.sumLon_eq (g : List Engine.ProjPoint) :
    EngineB.sumLon g = Engine.sumLon g := rfl

theorem EngineB.entityOf_eq_toB (g : List Engine.ProjPoint) :
    EngineB.entityOf g = (Engine.entityOf g).toB := by
  unfold EngineB.entityOf Engine.entityOf
  by_cases h : g.length = 1
  · rw [if_pos h, if_pos h]
    simp only [Engine.RenderEntity.toB]
  · rw [if_neg h, if_neg h]
    simp only [Engine.RenderEntity.toB]
    rw [EngineB.dominantStatus_eq, EngineB.clusterId_eq, EngineB.sumLat_eq, EngineB.sumLon_eq]

namespace Engine

/-- The member count an entity reports: a lone point stands for itself, a
cluster reports its `count` field. -/
def RenderEntity.memberCount : RenderEntity → ℕ
  | RenderEntity.single _ => 1
  | RenderEntity.cluster _ _ _ _ c _ => c

theorem eq_singleton_of_nodup {l : List ℕ} (hnd : l.Nodup) {a : ℕ} (ha : a ∈ l)
    (hall : ∀ x ∈ l, x = a) : l = [a] := by
  cases l with
  | nil => simp at ha
  | cons x xs =>
    have hx : x = a := hall x (List.mem_cons_self _ _)
    subst hx
    cases xs with
    | nil => rfl
    | cons y ys =>
      have hy : y = x := hall y (List.mem_cons_of_mem _ (List.mem_cons_self _ _))
      rw [List.nodup_cons] at hnd
      exact absurd (hy ▸ List.mem_cons_self y ys) (fun hmem => hnd.1 hmem)

/-- Modelled from the spec (§4.3, §7): the `WebMercatorViewport` projector
is an external collaborator whose code is not under `src/`; the spec
states that "NaN coordinates propagate as NaN screen coordinates". -/
def ProjPropagatesNaN (proj : Projector) : Prop :=
  ∀ lon lat, (lon = JsNum.nan ∨ lat = JsNum.nan) →
    proj lon lat = (JsNum.nan, JsNum.nan)

theorem close_nan_left {pp : List ProjPoint} {r : ℚ} {k : ℕ}
    (hx : (pp.getD k default).screenX = JsNum.nan) :
    ∀ j, close pp r k j = false := by
  intro j
  unfold close
  rw [hx]
  simp

theorem close_nan_right {pp : List ProjPoint} {r : ℚ} {k : ℕ}
    (hx : (pp.getD k default).screenX = JsNum.nan) :
    ∀ j, close pp r j k = false := by
  intro j
  unfold close
  rw [hx]
  simp

theorem sqrtLe_neg {d : JsNum} {r : ℚ} (hr : r < 0) :
    JsNum.sqrtLe d r = false := by
  cases d with
  | nan => rfl
  | num x =>
    show (if x < 0 then false else decide (0 ≤ r) && decide (x ≤ r * r)) = false
    by_cases hx : x < 0
    · rw [if_pos hx]
    · rw [if_neg hx]
      have h0 : decide (0 ≤ r) = false := by
        simp only [decide_eq_false_iff_not, not_le]
        exact hr
      rw [h0, Bool.false_and]

theorem sqrtLe_mono {d : JsNum} {r1 r2 : ℚ} (hr : r1 ≤ r2)
    (h : JsNum.sqrtLe d r1 = true) : JsNum.sqrtLe d r2 = true := by
  cases d with
  | nan => exact absurd h (by simp)
  | num x =>
    have h' : (if x < 0 then false else decide (0 ≤ r1) && decide (x ≤ r1 * r1)) = true := h
    show (if x < 0 then false else decide (0 ≤ r2) && decide (x ≤ r2 * r2)) = true
    by_cases hx : x < 0
    · rw [if_pos hx] at h'
      exact absurd h' (by simp)
    · rw [if_neg hx] at h'
      rw [if_neg hx]
      rw [Bool.and_eq_true, decide_eq_true_eq, decide_eq_true_eq] at h'
      obtain ⟨hr1, hxr1⟩ := h'
      rw [Bool.and_eq_true, decide_eq_true_eq, decide_eq_true_eq]
      exact ⟨le_trans hr1 hr, le_trans hxr1 (mul_self_le_mul_self hr1 hr)⟩

/-- A negative radius satisfies no distance comparison. -/
theorem close_neg {pp : List ProjPoint} {r : ℚ} (hr : r < 0) (i j : ℕ) :
    close pp r i j = false := by
  unfold close
  exact sqrtLe_neg hr

theorem closePairs_neg {pp : List ProjPoint} {r : ℚ} (hr : r < 0) :
    closePairs pp r = [] := by
  unfold closePairs
  apply List.filter_eq_nil_iff.mpr
  intro e _
  rw [close_neg hr]
  simp

theorem unionPass_neg {pp : List ProjPoint} {r : ℚ} (hr : r < 0) :
    unionPass pp r = UnionFind.initParent pp.length := by
  rw [unionPass_eq_runUnions, closePairs_neg hr, UnionFind.runUnions_nil]

/-- With no unions performed, every output group is a singleton. -/
theorem groups_neg_singletons {pp : List ProjPoint} {r : ℚ} (hr : r < 0) :
    ∀ g ∈ groups pp r, ∃ p, g = [p] := by
  intro g hg
  unfold groups at hg
  obtain ⟨gI, hgI, rfl⟩ := List.mem_map.mp hg
  have hWF := unionPass_WF pp r
  obtain ⟨rk, ⟨i0, hi0, hroot0⟩, hmem⟩ := mem_groupsIdx_spec hWF hgI
  have hrootid : ∀ i, i < pp.length →
      UnionFind.root pp.length (unionPass pp r) i = i := by
    intro i _
    rw [unionPass_neg hr]
    exact UnionFind.root_initParent _ _
  have hrk : rk = i0 := by rw [← hroot0, hrootid i0 hi0]
  have hall : ∀ x ∈ gI, x = i0 := by
    intro x hx
    obtain ⟨hxlt, hxroot⟩ := (hmem x).mp hx
    rw [hrootid x hxlt] at hxroot
    rw [hxroot, hrk]
  have hself : i0 ∈ gI := (hmem i0).mpr ⟨hi0, by rw [hrootid i0 hi0]; exact hrk.symm⟩
  rw [eq_singleton_of_nodup (groupsIdx_nodup hgI) hself hall]
  exact ⟨pp.getD i0 default, rfl⟩

theorem close_mono {pp : List ProjPoint} {r1 r2 : ℚ} (hr : r1 ≤ r2) {i j : ℕ}
    (h : close pp r1 i j = true) : close pp r2 i j = true := by
  unfold close at h ⊢
  exact sqrtLe_mono hr h

/-- Distinct output groups never share a member (point level). -/
theorem groups_disjoint {pts : List GeoPoint} {proj : Projector} {r : ℚ}
    {g g' : List ProjPoint}
    (hg : g ∈ groups (projectPoints proj pts) r)
    (hg' : g' ∈ groups (projectPoints proj pts) r)
    {x : ProjPoint} (hx : x ∈ g) (hx' : x ∈ g') : g = g' := by
  set pp := projectPoints proj pts with hpp
  have hlen : pp.length = pts.length := length_projectPoints proj pts
  unfold groups groupsIdx at hg hg'
  obtain ⟨gI, hgI, rfl⟩ := List.mem_map.mp hg
  obtain ⟨gI', hgI', rfl⟩ := List.mem_map.mp hg'
  obtain ⟨rk, _, rfl⟩ := List.mem_map.mp hgI
  obtain ⟨rk', _, rfl⟩ := List.mem_map.mp hgI'
  obtain ⟨i, higI, hieq⟩ := List.mem_map.mp hx
  obtain ⟨i', higI', hieq'⟩ := List.mem_map.mp hx'
  rw [List.mem_filter, List.mem_range] at higI higI'
  have hii : i = i' := by
    have h1 : (pp.getD i default).index = i := by
      rw [hpp]; exact projectPoints_index proj pts (hlen ▸ higI.1)
    have h2 : (pp.getD i' default).index = i' := by
      rw [hpp]; exact projectPoints_index proj pts (hlen ▸ higI'.1)
    rw [← h1, ← h2, hieq, hieq']
  subst hii
  have hrk : rk = rk' := by
    have h1 := higI.2
    have h2 := higI'.2
    rw [decide_eq_true_eq] at h1 h2
    rw [← h1, ← h2]
  subst hrk
  rfl

end Engine

/-!
## Concrete sample data for witnesses
-/

/-- A plain projector: screen coordinates equal (longitude, latitude). -/
def sampleProj : Engine.Projector := fun lon lat => (lon, lat)

/-- A projector that behaves like `sampleProj` on numbers and propagates
NaN in either coordinate to both screen coordinates. -/
def sampleProjN : Engine.Projector := fun lon lat =>
  (JsNum.add lon (JsNum.mul (JsNum.num 0) lat), JsNum.add lat (JsNum.mul (JsNum.num 0) lon))

theorem sampleProjN_propagates : Engine.ProjPropagatesNaN sampleProjN := by
  intro lon lat h
  rcases h with rfl | rfl
  · cases lat <;> rfl
  · cases lon <;> rfl

def pW1 : Engine.GeoPoint := ⟨JsNum.num 5, JsNum.num 5, "a", "weird"⟩
def pW2 : Engine.GeoPoint := ⟨JsNum.num 5, JsNum.num 5, "b", "weird"⟩
def ptsW : List Engine.GeoPoint := [pW1, pW2]
def ppW0 : Engine.ProjPoint := ⟨pW1, 0, JsNum.num 5, JsNum.num 5⟩
def ppW1 : Engine.ProjPoint := ⟨pW2, 1, JsNum.num 5, JsNum.num 5⟩
def gW : List Engine.ProjPoint := [ppW0, ppW1]

def ptsTie : List Engine.GeoPoint :=
  [⟨JsNum.num 1, JsNum.num 1, "x", "down for repairs"⟩,
   ⟨JsNum.num 1, JsNum.num 1, "y", "healthy"⟩,
   ⟨JsNum.num 1, JsNum.num 1, "z", "healthy"⟩,
   ⟨JsNum.num 1, JsNum.num 1, "w", "down for repairs"⟩]

def gTie : List Engine.ProjPoint :=
  [⟨⟨JsNum.num 1, JsNum.num 1, "x", "down for repairs"⟩, 0, JsNum.num 1, JsNum.num 1⟩,
   ⟨⟨JsNum.num 1, JsNum.num 1, "y", "healthy"⟩, 1, JsNum.num 1, JsNum.num 1⟩,
   ⟨⟨JsNum.num 1, JsNum.num 1, "z", "healthy"⟩, 2, JsNum.num 1, JsNum.num 1⟩,
   ⟨⟨JsNum.num 1, JsNum.num 1, "w", "down for repairs"⟩, 3, JsNum.num 1, JsNum.num 1⟩]

def ptsNum : List Engine.GeoPoint :=
  [⟨JsNum.num 2, JsNum.num 2, "a", "healthy"⟩,
   ⟨JsNum.num 2, JsNum.num 2, "b", "7"⟩,
   ⟨JsNum.num 2, JsNum.num 2, "c", "7"⟩,
   ⟨JsNum.num 2, JsNum.num 2, "d", "healthy"⟩]

def gNumHead : Engine.ProjPoint :=
  ⟨⟨JsNum.num 2, JsNum.num 2, "a", "healthy"⟩, 0, JsNum.num 2, JsNum.num 2⟩

def gNum : List Engine.ProjPoint :=
  [gNumHead,
   ⟨⟨JsNum.num 2, JsNum.num 2, "b", "7"⟩, 1, JsNum.num 2, JsNum.num 2⟩,
   ⟨⟨JsNum.num 2, JsNum.num 2, "c", "7"⟩, 2, JsNum.num 2, JsNum.num 2⟩,
   ⟨⟨JsNum.num 2, JsNum.num 2, "d", "healthy"⟩, 3, JsNum.num 2, JsNum.num 2⟩]

def ptsN : List Engine.GeoPoint :=
  [pW1, ⟨JsNum.nan, JsNum.num 5, "n", "healthy"⟩, pW2]

def pTest : ℕ → ℕ := fun x => if x = 1 then 0 else x

/-!
## The claims
-/

/-- C9: for every UnionFind constructed with n elements and after any
sequence of union calls on indices in [0, n), the parent array encodes an
acyclic forest — following parent links from any index reaches a
self-parent (within n steps) — so the recursive find terminates (fuel n
suffices) and returns that root. -/
theorem claim9_unionfind_wf (n : ℕ) (ops : List (ℕ × ℕ))
    (hops : ∀ e ∈ ops, e.1 < n ∧ e.2 < n) :
    UnionFind.WF n (UnionFind.runUnions n ops (UnionFind.initParent n)) ∧
    (∀ i, i < n → UnionFind.isRoot (UnionFind.runUnions n ops (UnionFind.initParent n))
      (UnionFind.root n (UnionFind.runUnions n ops (UnionFind.initParent n)) i)) ∧
    (∀ i, i < n →
      (UnionFind.find n (UnionFind.runUnions n ops (UnionFind.initParent n)) i).2 =
        UnionFind.root n (UnionFind.runUnions n ops (UnionFind.initParent n)) i) := by
  have h := UnionFind.runUnions_WF (UnionFind.WF_initParent n) hops
  exact ⟨h, fun i hi => h.2 i hi, fun i hi => (UnionFind.find_spec h hi).1⟩

theorem claim9_unionfind_wf_witness :
    (∀ e ∈ [((0 : ℕ), (1 : ℕ)), (1, 2)], e.1 < 3 ∧ e.2 < 3) ∧
    UnionFind.WF 3 (UnionFind.runUnions 3 [(0, 1), (1, 2)] (UnionFind.initParent 3)) :=
  ⟨by decide, (claim9_unionfind_wf 3 [(0, 1), (1, 2)] (by decide)).1⟩

/-- C10: the path-compressing find never changes the partition it answers
about — after a find call, any two live indices have equal roots exactly
when they had equal roots before. -/
theorem claim10_find_preserves_partition {n : ℕ} {p : ℕ → ℕ}
    (h : UnionFind.WF n p) {i : ℕ} (hi : i < n) :
    ∀ j k, j < n → k < n →
      (UnionFind.root n (UnionFind.find n p i).1 j =
          UnionFind.root n (UnionFind.find n p i).1 k ↔
        UnionFind.root n p j = UnionFind.root n p k) := by
  intro j k hj hk
  obtain ⟨_, _, hroots⟩ := UnionFind.find_spec h hi
  rw [hroots j hj, hroots k hk]

theorem claim10_find_preserves_partition_witness :
    (UnionFind.WF 3 pTest ∧ 1 < 3) ∧
    (UnionFind.root 3 (UnionFind.find 3 pTest 1).1 0 =
        UnionFind.root 3 (UnionFind.find 3 pTest 1).1 2 ↔
      UnionFind.root 3 pTest 0 = UnionFind.root 3 pTest 2) :=
  ⟨⟨by decide, by decide⟩,
    claim10_find_preserves_partition (by decide) (by decide) 0 2 (by decide) (by decide)⟩

/-- C8: the clustering passes of MapChart.tsx and src/unnamed/part_001 are
behaviorally equivalent — on identical input and viewport they compute the
same partition into groups, and each output entity agrees on member count,
centroid and dominant status (part_001's entity is exactly the MapChart
entity with the statusCounts field forgotten). -/
theorem claim8_engines_equivalent (pts : List Engine.GeoPoint)
    (proj : Engine.Projector) (r : ℚ) :
    EngineB.groups (EngineB.projectPoints proj pts) r =
      Engine.groups (Engine.projectPoints proj pts) r ∧
    EngineB.clusters pts proj r =
      (Engine.clusters pts proj r).map Engine.RenderEntity.toB := by
  constructor
  · exact EngineB.groups_eq _ _
  · show (if (EngineB.projectPoints proj pts).length = 0 then [] else
        (EngineB.groups (EngineB.projectPoints proj pts) r).map EngineB.entityOf) =
      (if (Engine.projectPoints proj pts).length = 0 then [] else
        (Engine.groups (Engine.projectPoints proj pts) r).map Engine.entityOf).map
        Engine.RenderEntity.toB
    by_cases h : (EngineB.projectPoints proj pts).length = 0
    · have h' : (Engine.projectPoints proj pts).length = 0 := h
      rw [if_pos h, if_pos h']
      rfl
    · have h' : ¬ (Engine.projectPoints proj pts).length = 0 := h
      rw [if_neg h, if_neg h']
      rw [EngineB.groups_eq, List.map_map]
      apply List.map_congr_left
      intro g _
      exact EngineB.entityOf_eq_toB g

/-- C6 (counterexample): a negative radius is NOT exactly radius 0 — on
two points with identical coordinates, radius 0 merges them (the distance
comparison is evaluated as ≤, and 0 ≤ 0) while radius -1 leaves two
singleton groups. -/
theorem claim6_counterexample :
    Engine.groups (Engine.projectPoints sampleProj ptsW) (-1) = [[ppW0], [ppW1]] ∧
    Engine.groups (Engine.projectPoints sampleProj ptsW) 0 = [[ppW0, ppW1]] ∧
    Engine.groups (Engine.projectPoints sampleProj ptsW) (-1) ≠
      Engine.groups (Engine.projectPoints sampleProj ptsW) 0 := by
  refine ⟨?_, ?_, ?_⟩ <;> with_unfolding_all decide

/-- C6 (amended): under any negative radius no distance comparison can
succeed, so every point is its own singleton group (no two points — not
even coordinate collisions — are ever placed in the same group); this
agrees with radius 0 except on exact coordinate collisions, which radius 0
still merges. -/
theorem claim6_amended (pts : List Engine.GeoPoint) (proj : Engine.Projector)
    {r : ℚ} (hr : r < 0) :
    ∀ g ∈ Engine.groups (Engine.projectPoints proj pts) r, ∃ p, g = [p] :=
  fun g hg => Engine.groups_neg_singletons hr g hg

theorem claim6_amended_witness :
    ((-1 : ℚ) < 0 ∧
      [ppW0] ∈ Engine.groups (Engine.projectPoints sampleProj ptsW) ((-1 : ℚ))) ∧
    (∃ p, [ppW0] = [p]) :=
  ⟨⟨by with_unfolding_all decide, by with_unfolding_all decide⟩,
    @claim6_amended ptsW sampleProj (-1) (by with_unfolding_all decide) [ppW0]
      (by with_unfolding_all decide)⟩

/-- C5 (counterexample): an unrecognized status value ("weird") is NOT
mapped to an `unknown` tag — it is kept verbatim as the key of
statusCounts and as the dominantStatus of the emitted cluster, and the
`unknown` tag never appears. -/
theorem claim5_counterexample :
    Engine.clusters ptsW sampleProj 50 =
      [Engine.RenderEntity.cluster "cluster-0-1" (JsNum.num 5) (JsNum.num 5)
        [("weird", 2)] 2 "weird"] ∧
    Engine.statusCounts gW = [("weird", 2)] ∧
    Engine.cnt (Engine.statusCounts gW) "unknown" = 0 ∧
    "unknown" ∉ (Engine.statusCounts gW).map Prod.fst := by
  refine ⟨?_, ?_, ?_, ?_⟩ <;> with_unfolding_all decide

/-- C5 (amended): unrecognized status values are kept verbatim, never an
error — for every group and every status string (recognized or not),
statusCounts records exactly its number of occurrences, and its keys are
exactly the statuses that occur among the members. -/
theorem claim5_amended (pts : List Engine.GeoPoint) (proj : Engine.Projector)
    (r : ℚ) :
    ∀ g ∈ Engine.groups (Engine.projectPoints proj pts) r, ∀ s : String,
      Engine.cnt (Engine.statusCounts g) s = g.countP (fun p => p.point.status == s) ∧
      (s ∈ (Engine.statusCounts g).map Prod.fst ↔ ∃ p ∈ g, p.point.status = s) :=
  fun g _ s => ⟨Engine.statusCounts_cnt g s, Engine.statusCounts_keys g s⟩

theorem claim5_amended_witness :
    (gW ∈ Engine.groups (Engine.projectPoints sampleProj ptsW) 50) ∧
    (Engine.cnt (Engine.statusCounts gW) "weird" = gW.countP (fun p => p.point.status == "weird") ∧
      ("weird" ∈ (Engine.statusCounts gW).map Prod.fst ↔ ∃ p ∈ gW, p.point.status = "weird")) :=
  ⟨by with_unfolding_all decide,
    claim5_amended ptsW sampleProj 50 gW (by with_unfolding_all decide) "weird"⟩

/-- C1: clustering is a partition — concatenating the member indices of
all output groups yields every input index exactly once (no point lost,
none duplicated), the entity list is exactly one entity per group, and
each entity tallies its group exactly once in memberCount and in the
statusCounts total. -/
theorem claim1_partition (pts : List Engine.GeoPoint) (proj : Engine.Projector) (r : ℚ) :
    ((((Engine.groups (Engine.projectPoints proj pts) r).map
        (fun g => g.map (fun p => p.index))).flatten).Perm (List.range pts.length)) ∧
    Engine.clusters pts proj r =
      (Engine.groups (Engine.projectPoints proj pts) r).map Engine.entityOf ∧
    ∀ g ∈ Engine.groups (Engine.projectPoints proj pts) r,
      (Engine.entityOf g).memberCount = g.length ∧
      Engine.sumCounts (Engine.statusCounts g) = g.length := by
  refine ⟨Engine.groups_index_join_perm pts proj r, ?_, ?_⟩
  · show (if (Engine.projectPoints proj pts).length = 0 then [] else
        (Engine.groups (Engine.projectPoints proj pts) r).map Engine.entityOf) = _
    by_cases h : (Engine.projectPoints proj pts).length = 0
    · rw [if_pos h]
      have hpp : Engine.projectPoints proj pts = [] := List.length_eq_zero.mp h
      rw [hpp]
      rfl
    · rw [if_neg h]
  · intro g hg
    constructor
    · by_cases h1 : g.length = 1
      · unfold Engine.entityOf
        rw [if_pos h1]
        simp only [Engine.RenderEntity.memberCount]
        omega
      · unfold Engine.entityOf
        rw [if_neg h1]
        simp only [Engine.RenderEntity.memberCount]
    · exact Engine.statusCounts_sum g

theorem claim1_partition_witness :
    ((((Engine.groups (Engine.projectPoints sampleProj ptsW) 50).map
        (fun g => g.map (fun p => p.index))).flatten).Perm (List.range 2)) ∧
    ((Engine.entityOf gW).memberCount = gW.length ∧
      Engine.sumCounts (Engine.statusCounts gW) = gW.length) :=
  ⟨(claim1_partition ptsW sampleProj 50).1,
    (claim1_partition ptsW sampleProj 50).2.2 gW (by with_unfolding_all decide)⟩

/-- C2: the pairwise union pass computes exactly the connected components
of the proximity graph — two input indices land in the same output group
iff a chain of points connects them whose consecutive projected distances
are each within the radius. -/
theorem claim2_connected_components (pts : List Engine.GeoPoint)
    (proj : Engine.Projector) (r : ℚ) {a b : ℕ}
    (ha : a < pts.length) (hb : b < pts.length) :
    Engine.sameGroup (Engine.projectPoints proj pts) r a b ↔
      Relation.ReflTransGen (Engine.chainRel (Engine.projectPoints proj pts) r) a b := by
  rw [Engine.sameGroup_iff_root ha hb]
  exact Engine.unionPass_root_iff
    (by rw [Engine.length_projectPoints]; exact ha)
    (by rw [Engine.length_projectPoints]; exact hb)

theorem claim2_connected_components_witness :
    Engine.sameGroup (Engine.projectPoints sampleProj ptsW) 50 0 1 ∧
    Relation.ReflTransGen (Engine.chainRel (Engine.projectPoints sampleProj ptsW) 50) 0 1 := by
  have hsg : Engine.sameGroup (Engine.projectPoints sampleProj ptsW) 50 0 1 := by
    with_unfolding_all decide
  exact ⟨hsg, (claim2_connected_components ptsW sampleProj 50
    (by decide) (by decide)).mp hsg⟩

/-- C3 (counterexample): the first-member tie-break fails when a status
string is array-index-like — on a cluster with statuses
["healthy", "7", "7", "healthy"] (a 2-2 tie, first member, and first
member among those tied, having status "healthy"), `Object.keys` hoists
the numeric-string key "7" to the front, so the program resolves
dominantStatus to "7", not "healthy". -/
theorem claim3_counterexample :
    gNum ∈ Engine.groups (Engine.projectPoints sampleProj ptsNum) 50 ∧
    2 ≤ ((Engine.statusCounts gNum).filter
      (fun kv => kv.2 == Engine.maxCount (Engine.statusCounts gNum))).length ∧
    gNum.find? (fun q => Engine.cnt (Engine.statusCounts gNum) q.point.status ==
        Engine.maxCount (Engine.statusCounts gNum)) = some gNumHead ∧
    gNumHead.point.status = "healthy" ∧
    Engine.dominantStatus gNum = "7" ∧
    ¬ Engine.dominantStatus gNum = "healthy" := by
  refine ⟨?_, ?_, ?_, ?_, ?_, ?_⟩ <;> with_unfolding_all decide

/-- C3 (amended): when no member's status is an array-index-like string
(a canonical numeric string, which `Object.keys` would enumerate first in
ascending numeric order) and two or more statuses tie for the maximum
count, the dominant status is the status of the first member encountered
during group iteration among those tied for the maximum — formally,
dominantStatus is the status of the first member whose status attains the
maximum count; in particular the spec's {healthy: 2, down-for-repairs: 2}
instance with first member down-for-repairs resolves to down-for-repairs. -/
theorem claim3_dominant_tiebreak (pts : List Engine.GeoPoint)
    (proj : Engine.Projector) (r : ℚ) (g : List Engine.ProjPoint)
    (hg : g ∈ Engine.groups (Engine.projectPoints proj pts) r)
    (hnum : ∀ p ∈ g, Engine.jsIndexVal? p.point.status = none)
    (htie : 2 ≤ ((Engine.statusCounts g).filter
      (fun kv => kv.2 == Engine.maxCount (Engine.statusCounts g))).length) :
    ∃ p ∈ g,
      g.find? (fun q => Engine.cnt (Engine.statusCounts g) q.point.status ==
        Engine.maxCount (Engine.statusCounts g)) = some p ∧
      Engine.dominantStatus g = p.point.status := by
  have hne : g ≠ [] := by
    have hpos := Engine.groups_nonempty g hg
    intro he
    rw [he] at hpos
    simp at hpos
  exact Engine.dominantStatus_spec g hne hnum

theorem claim3_dominant_tiebreak_witness :
    (gTie ∈ Engine.groups (Engine.projectPoints sampleProj ptsTie) 50 ∧
      (∀ p ∈ gTie, Engine.jsIndexVal? p.point.status = none) ∧
      Engine.cnt (Engine.statusCounts gTie) "healthy" = 2 ∧
      Engine.cnt (Engine.statusCounts gTie) "down for repairs" = 2 ∧
      Engine.dominantStatus gTie = "down for repairs") ∧
    ∃ p ∈ gTie,
      gTie.find? (fun q => Engine.cnt (Engine.statusCounts gTie) q.point.status ==
        Engine.maxCount (Engine.statusCounts gTie)) = some p ∧
      Engine.dominantStatus gTie = p.point.status :=
  ⟨⟨by with_unfolding_all decide, by with_unfolding_all decide,
      by with_unfolding_all decide, by with_unfolding_all decide,
      by with_unfolding_all decide⟩,
    claim3_dominant_tiebreak ptsTie sampleProj 50 gTie
      (by with_unfolding_all decide) (by with_unfolding_all decide)
      (by with_unfolding_all decide)⟩

/-- C4: clustering is monotone in the radius — with points and viewport
fixed and r1 ≤ r2, any two indices sharing a group at radius r1 still
share a group at radius r2, and every group of the r1 partition is
contained in a single group of the r2 partition. -/
theorem claim4_radius_monotone (pts : List Engine.GeoPoint)
    (proj : Engine.Projector) {r1 r2 : ℚ} (hr : r1 ≤ r2) :
    (∀ a b, a < pts.length → b < pts.length →
      Engine.sameGroup (Engine.projectPoints proj pts) r1 a b →
      Engine.sameGroup (Engine.projectPoints proj pts) r2 a b) ∧
    (∀ g1 ∈ Engine.groups (Engine.projectPoints proj pts) r1,
      ∃ g2 ∈ Engine.groups (Engine.projectPoints proj pts) r2,
        ∀ x ∈ g1, x ∈ g2) := by
  have hlen := Engine.length_projectPoints proj pts
  have hpair : ∀ a b, a < pts.length → b < pts.length →
      Engine.sameGroup (Engine.projectPoints proj pts) r1 a b →
      Engine.sameGroup (Engine.projectPoints proj pts) r2 a b := by
    intro a b ha hb h
    rw [Engine.sameGroup_iff_root ha hb] at h ⊢
    rw [Engine.unionPass_root_iff (hlen ▸ ha) (hlen ▸ hb)] at h ⊢
    refine Relation.ReflTransGen.mono ?_ h
    rintro x y ⟨hx, hy, hc⟩
    exact ⟨hx, hy, Engine.close_mono hr hc⟩
  refine ⟨hpair, ?_⟩
  intro g1 hg1
  have hg1' := hg1
  unfold Engine.groups at hg1'
  obtain ⟨gI, hgI, hg1eq⟩ := List.mem_map.mp hg1'
  have hWF := Engine.unionPass_WF (Engine.projectPoints proj pts) r1
  obtain ⟨rk, ⟨i0, hi0, hroot0⟩, hmem⟩ := Engine.mem_groupsIdx_spec hWF hgI
  have hi0g : i0 ∈ gI := (hmem i0).mpr ⟨hi0, hroot0⟩
  have hWF2 := Engine.unionPass_WF (Engine.projectPoints proj pts) r2
  obtain ⟨gI2, hgI2, hi0g2⟩ := Engine.groupsIdx_cover hWF2 hi0
  have hg2mem : gI2.map (fun i => (Engine.projectPoints proj pts).getD i default) ∈
      Engine.groups (Engine.projectPoints proj pts) r2 := by
    unfold Engine.groups
    exact List.mem_map.mpr ⟨gI2, hgI2, rfl⟩
  have hg2i0 : (Engine.projectPoints proj pts).getD i0 default ∈
      gI2.map (fun i => (Engine.projectPoints proj pts).getD i default) :=
    List.mem_map.mpr ⟨i0, hi0g2, rfl⟩
  refine ⟨gI2.map (fun i => (Engine.projectPoints proj pts).getD i default), hg2mem, ?_⟩
  intro x hx
  rw [← hg1eq] at hx
  obtain ⟨i, higI, hieq⟩ := List.mem_map.mp hx
  have hilt : i < (Engine.projectPoints proj pts).length := ((hmem i).mp higI).1
  have hsg1 : Engine.sameGroup (Engine.projectPoints proj pts) r1 i i0 := by
    refine ⟨g1, hg1, ?_, ?_⟩
    · rw [← hg1eq]; exact List.mem_map.mpr ⟨i, higI, rfl⟩
    · rw [← hg1eq]; exact List.mem_map.mpr ⟨i0, hi0g, rfl⟩
  obtain ⟨g', hg', hxi', hxi0'⟩ :=
    hpair i i0 (hlen ▸ hilt) (hlen ▸ hi0) hsg1
  have hgd : g' = gI2.map (fun i => (Engine.projectPoints proj pts).getD i default) :=
    Engine.groups_disjoint hg' hg2mem hxi0' hg2i0
  rw [hgd] at hxi'
  rw [← hieq]
  exact hxi'

theorem claim4_radius_monotone_witness :
    ((0 : ℚ) ≤ 50 ∧ Engine.sameGroup (Engine.projectPoints sampleProj ptsW) 0 0 1) ∧
    Engine.sameGroup (Engine.projectPoints sampleProj ptsW) 50 0 1 :=
  ⟨⟨by decide, by with_unfolding_all decide⟩,
    (@claim4_radius_monotone ptsW sampleProj 0 50 (by decide)).1 0 1
      (by decide) (by decide) (by with_unfolding_all decide)⟩

/-- C7: the engine never raises on a NaN point — assuming the external
projector propagates NaN coordinates to NaN screen coordinates (spec
§4.3), a point with NaN latitude or longitude satisfies no distance
comparison, is never unioned with any other point, appears in the output
as a singleton Single entity, and the remaining points are grouped exactly
by the proximity chains that avoid it (the engine itself is a total
function, so no input can make it raise). -/
theorem claim7_nan_degrades (pts : List Engine.GeoPoint) (proj : Engine.Projector)
    (r : ℚ) (hproj : Engine.ProjPropagatesNaN proj) {k : ℕ} (hk : k < pts.length)
    (hnan : (pts.getD k default).latitude = JsNum.nan ∨
      (pts.getD k default).longitude = JsNum.nan) :
    (∀ j, Engine.close (Engine.projectPoints proj pts) r k j = false ∧
      Engine.close (Engine.projectPoints proj pts) r j k = false) ∧
    (∃ g ∈ Engine.groups (Engine.projectPoints proj pts) r,
      g = [(Engine.projectPoints proj pts).getD k default]) ∧
    (Engine.RenderEntity.single ((Engine.projectPoints proj pts).getD k default) ∈
      Engine.clusters pts proj r) ∧
    (∀ a b, a < pts.length → b < pts.length → a ≠ k → b ≠ k →
      (Engine.sameGroup (Engine.projectPoints proj pts) r a b ↔
        Relation.ReflTransGen
          (fun x y => Engine.chainRel (Engine.projectPoints proj pts) r x y ∧
            x ≠ k ∧ y ≠ k) a b)) := by
  have hlen := Engine.length_projectPoints proj pts
  have hk' : k < (Engine.projectPoints proj pts).length := hlen ▸ hk
  have hor : (pts.getD k default).longitude = JsNum.nan ∨
      (pts.getD k default).latitude = JsNum.nan := hnan.symm
  have hscreen : ((Engine.projectPoints proj pts).getD k default).screenX = JsNum.nan := by
    rw [Engine.projectPoints_getD proj pts hk]
    show (proj (pts.getD k default).longitude (pts.getD k default).latitude).1 = JsNum.nan
    rw [hproj _ _ hor]
  have hcl : ∀ j, Engine.close (Engine.projectPoints proj pts) r k j = false ∧
      Engine.close (Engine.projectPoints proj pts) r j k = false :=
    fun j => ⟨Engine.close_nan_left hscreen j, Engine.close_nan_right hscreen j⟩
  have hWF := Engine.unionPass_WF (Engine.projectPoints proj pts) r
  have hchain_to_k : ∀ i, Relation.ReflTransGen
      (Engine.chainRel (Engine.projectPoints proj pts) r) i k → i = k := by
    intro i h
    rcases Relation.ReflTransGen.cases_tail h with he | ⟨c, _, hstep⟩
    · exact he.symm
    · exact absurd hstep.2.2 (by rw [(hcl c).2]; simp)
  have hsingleton : ∃ g ∈ Engine.groups (Engine.projectPoints proj pts) r,
      g = [(Engine.projectPoints proj pts).getD k default] := by
    obtain ⟨gI, hgI, hkgI⟩ := Engine.groupsIdx_cover hWF hk'
    obtain ⟨rk, _, hmem⟩ := Engine.mem_groupsIdx_spec hWF hgI
    have hrk : UnionFind.root (Engine.projectPoints proj pts).length
        (Engine.unionPass (Engine.projectPoints proj pts) r) k = rk :=
      ((hmem k).mp hkgI).2
    have hall : ∀ x ∈ gI, x = k := by
      intro x hx
      obtain ⟨hxlt, hxroot⟩ := (hmem x).mp hx
      have hroots : UnionFind.root (Engine.projectPoints proj pts).length
          (Engine.unionPass (Engine.projectPoints proj pts) r) x =
          UnionFind.root (Engine.projectPoints proj pts).length
            (Engine.unionPass (Engine.projectPoints proj pts) r) k := by
        rw [hxroot, hrk]
      exact hchain_to_k x ((Engine.unionPass_root_iff hxlt hk').mp hroots)
    have hgIeq : gI = [k] :=
      Engine.eq_singleton_of_nodup (Engine.groupsIdx_nodup hgI) hkgI hall
    refine ⟨gI.map (fun i => (Engine.projectPoints proj pts).getD i default), ?_, ?_⟩
    · unfold Engine.groups
      exact List.mem_map.mpr ⟨gI, hgI, rfl⟩
    · rw [hgIeq]
      rfl
  refine ⟨hcl, hsingleton, ?_, ?_⟩
  · obtain ⟨g, hgmem, hgeq⟩ := hsingleton
    show Engine.RenderEntity.single _ ∈
      (if (Engine.projectPoints proj pts).length = 0 then [] else
        (Engine.groups (Engine.projectPoints proj pts) r).map Engine.entityOf)
    rw [if_neg (by omega)]
    refine List.mem_map.mpr ⟨g, hgmem, ?_⟩
    rw [hgeq]
    rfl
  · intro a b ha hb hak hbk
    have ha' : a < (Engine.projectPoints proj pts).length := hlen ▸ ha
    have hb' : b < (Engine.projectPoints proj pts).length := hlen ▸ hb
    have haux : ∀ b', Relation.ReflTransGen
        (Engine.chainRel (Engine.projectPoints proj pts) r) a b' → b' ≠ k →
        Relation.ReflTransGen
          (fun x y => Engine.chainRel (Engine.projectPoints proj pts) r x y ∧
            x ≠ k ∧ y ≠ k) a b' := by
      intro b' h
      induction h with
      | refl => intro _; exact Relation.ReflTransGen.refl
      | tail hxm hstep ih =>
        rename_i m b''
        intro hb''
        have hmk : m ≠ k := by
          intro he
          rw [he] at hstep
          exact absurd hstep.2.2 (by rw [(hcl b'').1]; simp)
        exact Relation.ReflTransGen.tail (ih hmk) ⟨hstep, hmk, hb''⟩
    constructor
    · intro h
      rw [Engine.sameGroup_iff_root ha hb] at h
      exact haux b ((Engine.unionPass_root_iff ha' hb').mp h) hbk
    · intro h
      rw [Engine.sameGroup_iff_root ha hb]
      apply (Engine.unionPass_root_iff ha' hb').mpr
      refine Relation.ReflTransGen.mono ?_ h
      rintro x y ⟨h1, _, _⟩
      exact h1

theorem claim7_nan_degrades_witness :
    (1 < ptsN.length ∧ (ptsN.getD 1 default).latitude = JsNum.nan) ∧
    (∃ g ∈ Engine.groups (Engine.projectPoints sampleProjN ptsN) 50,
      g = [(Engine.projectPoints sampleProjN ptsN).getD 1 default]) :=
  ⟨⟨by decide, by with_unfolding_all decide⟩,
    (claim7_nan_degrades ptsN sampleProjN 50 sampleProjN_propagates
      (by decide) (Or.inl (by with_unfolding_all decide))).2.1⟩
